import Mathlib

/-!
Verification of the batch-rename engine of the Rename_file_GUI repository.

The Python sources are shallowly embedded: paths are pairs of a directory
string and a file name, the filesystem is the finite set of regular files
present (every file in it is readable, every directory writable — the
engine's preflight checks beyond existence are environmental and modelled
as passing for present files), strings are modelled over their character
lists with ASCII case folding (Python's `str.lower` restricted to ASCII),
and `uuid.uuid4` draws are modelled by an explicit stream of identifiers.
Fallible Python code (raising exceptions) is embedded with `Option` /
`Except`.  Definitions mirror `models.py`, `sorter.py`, `validator.py`
and `rename_transaction.py` function by function.
-/

namespace RenameFileGUI

/-! ## String helpers

Python string primitives used by the sources, modelled over character
lists.  `strLower` is `str.lower` (ASCII), `charListLtb` is Python's
lexicographic string comparison by code point. -/

/-- ASCII model of Python `str.lower`. -/
def strLower (s : String) : String :=
  String.mk (s.data.map Char.toLower)

/-- Lexicographic code-point comparison of character lists:
Python's `str.__lt__`. -/
def charListLtb : List Char → List Char → Bool
  | [], [] => false
  | [], _ :: _ => true
  | _ :: _, [] => false
  | a :: as, b :: bs => a.toNat < b.toNat || (a.toNat == b.toNat && charListLtb as bs)

/-- Python string `<`. -/
def strLtb (a b : String) : Bool :=
  charListLtb a.data b.data

/-! ## Paths and the filesystem -/

/-- An absolute path: the parent directory (as an opaque string) and the
file name.  `pathlib.Path.resolve` is modelled as the identity: paths are
taken to be already absolute and symlink-free. -/
structure FPath where
  dir : String
  name : String
deriving DecidableEq, Repr

/-- `pathlib.Path.stem`: the file name with its last suffix removed.
A dot at position 0 does not start a suffix (`.hidden` has no suffix). -/
def FPath.stem (p : FPath) : String :=
  let cs := p.name.data
  let lastDot := (List.range cs.length).foldl
    (fun acc i => if cs.getD i ' ' = '.' then some i else acc) none
  match lastDot with
  | some i => if 0 < i then String.mk (cs.take i) else p.name
  | none => p.name

/-- The filesystem: the list of regular files present (set semantics —
membership is what matters; helpers below keep it duplicate free). -/
abbrev Fs := List FPath

/-- Create a file entry (used for the destination of a rename). -/
def Fs.add (fs : Fs) (p : FPath) : Fs :=
  if p ∈ fs then fs else p :: fs

/-- Delete a file entry (used for rename sources and `unlink`). -/
def Fs.remove (fs : Fs) (p : FPath) : Fs :=
  fs.filter (fun q => q != p)

/-! ## Data model (`models.py`) -/

/-- `RenameStatus`: status of a rename operation. -/
inductive RenameStatus where
  | pending
  | staged
  | completed
  | failed
  | rolledBack
deriving DecidableEq, Repr

/-- `EpisodeMetadata`: immutable metadata extracted from a filename.
`confidence` is modelled as a rational; the Python float comparisons in
`__post_init__` are exact order comparisons, which ℚ reproduces. -/
structure EpisodeMetadata where
  originalName : String
  filePath : FPath
  season : Option Nat := none
  episode : Option Nat := none
  extractedNumber : Option Nat := none
  confidence : ℚ := 0
  cleanedTitle : String := ""
  extension : String := ""
  extractionMethod : String := ""
deriving DecidableEq, Repr

/-- `EpisodeMetadata.__post_init__`: construction succeeds only when the
confidence lies in the closed interval [0, 1]; otherwise `ValueError`. -/
def EpisodeMetadata.make (m : EpisodeMetadata) : Option EpisodeMetadata :=
  if 0 ≤ m.confidence ∧ m.confidence ≤ 1 then some m else none

/-- `RenameOperation`: one file rename inside a transaction. -/
structure RenameOperation where
  originalPath : FPath
  metadata : EpisodeMetadata
  targetName : String
  targetPath : FPath
  stagingId : String
  stagingPath : Option FPath := none
  status : RenameStatus := RenameStatus.pending
  errorMessage : Option String := none
deriving DecidableEq, Repr

/-- `RenameOperation.get_staging_filename`. -/
def RenameOperation.stagingFilename (op : RenameOperation) : String :=
  ".rename_staging_" ++ op.stagingId ++ op.metadata.extension

/-- The staging path assigned by preflight: the staging filename placed in
the target's parent directory. -/
def stagingPathOf (op : RenameOperation) : FPath :=
  ⟨op.targetPath.dir, op.stagingFilename⟩

/-- `RenameOperation.is_case_only_change`. -/
def RenameOperation.isCaseOnlyChange (op : RenameOperation) : Bool :=
  strLower op.originalPath.name == strLower op.targetName &&
    op.originalPath.name != op.targetName

/-- `RenameTransaction`: ordered operations plus a transaction id. -/
structure RenameTransaction where
  operations : List RenameOperation
  transactionId : String
deriving DecidableEq, Repr

/-- `RenameTransaction.all_completed`. -/
def RenameTransaction.allCompleted (t : RenameTransaction) : Bool :=
  t.operations.all (fun op => op.status == RenameStatus.completed)

/-! ## Natural sorter (`sorter.py`, class `NaturalSorter`) -/

/-- One entry of a natural sort key: `re.split(r'(\d+)', text)` parts
after `convert` — digit runs become integers, text runs are lowercased. -/
inductive NatKeyPart where
  | num (n : Nat)
  | str (s : String)
deriving DecidableEq, Repr

mutual

/-- Scanning a text run; `acc` holds its characters in reverse. -/
def naturalKeyText : List Char → List Char → List NatKeyPart
  | [], acc => [NatKeyPart.str (strLower (String.mk acc.reverse))]
  | c :: cs, acc =>
    if c.isDigit then
      NatKeyPart.str (strLower (String.mk acc.reverse)) ::
        naturalKeyDigits cs (c.toNat - 48)
    else
      naturalKeyText cs (c :: acc)

/-- Scanning a digit run; `n` is its value so far.  `re.split` with a
capturing group always yields a (possibly empty) text part between and
around digit runs, hence the trailing empty string part. -/
def naturalKeyDigits : List Char → Nat → List NatKeyPart
  | [], n => [NatKeyPart.num n, NatKeyPart.str ""]
  | c :: cs, n =>
    if c.isDigit then
      naturalKeyDigits cs (n * 10 + (c.toNat - 48))
    else
      NatKeyPart.num n :: naturalKeyText cs [c]

end

/-- `NaturalSorter.natural_sort_key`. -/
def naturalSortKey (text : String) : List NatKeyPart :=
  naturalKeyText text.data []

/-- Python `<` on converted parts.  Comparing an integer part with a
string part raises in Python; it can never happen between two keys
produced by `naturalSortKey` (parts of the same index have the same
kind), so the cross cases are fixed arbitrarily (numbers first). -/
def NatKeyPart.ltb : NatKeyPart → NatKeyPart → Bool
  | NatKeyPart.num a, NatKeyPart.num b => a < b
  | NatKeyPart.str a, NatKeyPart.str b => strLtb a b
  | NatKeyPart.num _, NatKeyPart.str _ => true
  | NatKeyPart.str _, NatKeyPart.num _ => false

/-- Python list `<` on natural sort keys. -/
def natKeyListLtb : List NatKeyPart → List NatKeyPart → Bool
  | [], [] => false
  | [], _ :: _ => true
  | _ :: _, [] => false
  | a :: as, b :: bs => NatKeyPart.ltb a b || (a == b && natKeyListLtb as bs)

/-- `NaturalSorter.sort_metadata`'s key: primary the extracted number with
`None` replaced by the sentinel 999999, secondary the natural key of the
original name. -/
def metaSortKey (m : EpisodeMetadata) : Nat × List NatKeyPart :=
  (m.extractedNumber.getD 999999, naturalSortKey m.originalName)

/-- Python tuple `<` on sort keys. -/
def metaKeyLtb (a b : Nat × List NatKeyPart) : Bool :=
  a.1 < b.1 || (a.1 == b.1 && natKeyListLtb a.2 b.2)

/-- The "comes before or stays" relation of a stable sort driven by `<`
on keys: `a` may be placed before `b` exactly when `b`'s key is not
smaller. -/
def metaLe (a b : EpisodeMetadata) : Prop :=
  metaKeyLtb (metaSortKey b) (metaSortKey a) = false

instance : DecidableRel metaLe := fun a b => by
  unfold metaLe
  infer_instance

/-- `NaturalSorter.sort_metadata`.  Python's `sorted` is a stable sort by
the key; a stable sort for a total preorder is extensionally unique, so
the insertion sort below computes the same list. -/
def sortMetadata (metadataList : List EpisodeMetadata) : List EpisodeMetadata :=
  List.insertionSort metaLe metadataList

/-- The effective primary number used by the sorter. -/
def effectiveNumber (m : EpisodeMetadata) : Nat :=
  m.extractedNumber.getD 999999

/-! ## Conflict detector (`sorter.py`, class `ConflictDetector`) -/

/-- Insert an operation into the insertion-ordered grouping map
`target_map` of `detect_duplicate_targets`: a Python dict is an
association list whose keys appear in first-insertion order and whose
values grow at the back. -/
def insertTarget (m : List (String × List RenameOperation)) (k : String)
    (op : RenameOperation) : List (String × List RenameOperation) :=
  match m with
  | [] => [(k, [op])]
  | (k2, ops) :: rest =>
    if k2 = k then (k2, ops ++ [op]) :: rest
    else (k2, ops) :: insertTarget rest k op

/-- `ConflictDetector.detect_duplicate_targets`: group by lowercased
target name, keep the groups of size at least 2. -/
def detectDuplicateTargets (operations : List RenameOperation) :
    List (String × List RenameOperation) :=
  (operations.foldl (fun m op => insertTarget m (strLower op.targetName) op) []).filter
    (fun kv => 1 < kv.2.length)

/-- `ConflictDetector.detect_number_gaps`: integers missing from the
closed interval spanned by the extracted numbers. -/
def detectNumberGaps (metadataList : List EpisodeMetadata) : List Nat :=
  let numbers := metadataList.filterMap (fun m => m.extractedNumber)
  match numbers.min?, numbers.max? with
  | some minNum, some maxNum =>
    (List.range' minNum (maxNum + 1 - minNum)).filter (fun i => !numbers.contains i)
  | _, _ => []

/-- The dict comprehensions `rename_map` / `op_map` of
`detect_circular_renames`: on duplicate source paths the last operation
wins, hence the lookup scans the reversed list. -/
def renameLookup (operations : List RenameOperation) (p : FPath) :
    Option RenameOperation :=
  operations.reverse.find? (fun op => op.originalPath == p)

/-- Mutable state of `detect_circular_renames`: the shared visited set
(insertion order kept, only membership matters) and the collected
cycles. -/
structure CycleState where
  visited : List FPath
  cycles : List (List RenameOperation)
deriving DecidableEq, Repr

/-- The recursive `find_cycle` closure.  The recursion depth is bounded
in Python by the visited set (each recursive step first adds an
unvisited source path); `fuel` makes that bound explicit, and any fuel
larger than the number of operations reproduces the Python behaviour. -/
def findCycle (operations : List RenameOperation) (start : FPath) :
    Nat → FPath → List FPath → CycleState → Bool × CycleState
  | 0, _, _, st => (false, st)
  | fuel + 1, current, path, st =>
    if current = start ∧ 1 < path.length then
      let cycleOps := path.filterMap (renameLookup operations)
      if cycleOps.isEmpty then (true, st)
      else (true, { st with cycles := st.cycles ++ [cycleOps] })
    else if current ∈ st.visited then (false, st)
    else
      let st2 : CycleState := { st with visited := st.visited ++ [current] }
      match renameLookup operations current with
      | some op => findCycle operations start fuel op.targetPath (path ++ [current]) st2
      | none => (false, st2)

/-- `ConflictDetector.detect_circular_renames`. -/
def detectCircularRenames (operations : List RenameOperation) :
    List (List RenameOperation) :=
  (operations.foldl
    (fun st op =>
      if op.originalPath ∈ st.visited then st
      else (findCycle operations op.originalPath (operations.length + 1)
        op.originalPath [] st).2)
    ⟨[], []⟩).cycles

/-- The directed edge of the rename graph: one operation's target is the
next operation's source. -/
def opEdge (a b : RenameOperation) : Prop :=
  a.targetPath = b.originalPath

/-- `c` is a genuine rename cycle of the operation list: at least two
operations drawn from the list, consecutive operations chained
source→target, and the last one feeding back into the first. -/
def isCycleOf (operations c : List RenameOperation) : Prop :=
  2 ≤ c.length ∧ (∀ op ∈ c, op ∈ operations) ∧ List.Chain' opEdge c ∧
    (∀ la ∈ c.getLast?, ∀ fi ∈ c.head?, opEdge la fi)

/-- The chain invariant of `find_cycle`'s arguments: `path` is the
sequence of nodes stepped through from `start` along the rename map,
and `current` is where the walk stands (the target of the last step, or
`start` itself before any step). -/
inductive PathChain (operations : List RenameOperation) (start : FPath) :
    List FPath → FPath → Prop where
  | nil : PathChain operations start [] start
  | snoc {path : List FPath} {current : FPath} {op : RenameOperation} :
      PathChain operations start path current →
      renameLookup operations current = some op →
      PathChain operations start (path ++ [current]) op.targetPath

/-! ## Safe formatter (`validator.py`, class `SafeFormatter`)

`string.Formatter.parse` is embedded as `parseFormat`; a parse failure
(`None`) models the `ValueError` Python raises on a malformed template.
Templates whose braces nest inside a format spec are outside the model
and also map to `none`.  Rendering supports the format specs the
application itself uses: the empty spec (Python `str(value)`) and
zero-padded decimal specs such as `02d`; any other spec or an explicit
conversion renders as an error. -/

def lbraceChar : Char := '\x7b'

def rbraceChar : Char := '\x7d'

/-- One parsed template token: literal text, or a replacement field with
its name, optional conversion character and format spec. -/
inductive FmtTok where
  | lit (s : String)
  | field (name : String) (conv : Option Char) (spec : String)
deriving DecidableEq, Repr

/-- Split the text of a replacement field into name, conversion and
spec, as `Formatter.parse` does. -/
def splitField (cs : List Char) : Option (String × Option Char × String) :=
  let nameCs := cs.takeWhile (fun c => c ≠ '!' ∧ c ≠ ':')
  let rest := cs.dropWhile (fun c => c ≠ '!' ∧ c ≠ ':')
  match rest with
  | [] => some (String.mk nameCs, none, "")
  | '!' :: c :: ':' :: spec => some (String.mk nameCs, some c, String.mk spec)
  | '!' :: [c] => some (String.mk nameCs, some c, "")
  | '!' :: _ => none
  | ':' :: spec => some (String.mk nameCs, none, String.mk spec)
  | _ => none

/-- Parser worker: `acc` collects the pending literal characters in
reverse order.  The recursion consumes at least one character per step;
`fuel` makes that measure structural (any fuel above the input length
reproduces the parse; `parseFormat` passes length + 1). -/
def parseFmtAux : Nat → List Char → List Char → Option (List FmtTok)
  | 0, _, _ => none
  | _ + 1, [], acc =>
    if acc.isEmpty then some []
    else some [FmtTok.lit (String.mk acc.reverse)]
  | fuel + 1, c :: cs, acc =>
    if c = lbraceChar then
      match cs with
      | c2 :: cs2 =>
        if c2 = lbraceChar then parseFmtAux fuel cs2 (lbraceChar :: acc)
        else
          let fieldCs := (c2 :: cs2).takeWhile (fun d => d ≠ rbraceChar)
          match (c2 :: cs2).dropWhile (fun d => d ≠ rbraceChar) with
          | [] => none
          | _ :: rest2 =>
            if fieldCs.contains lbraceChar then none
            else
              match splitField fieldCs with
              | none => none
              | some (name, conv, spec) =>
                let tok := FmtTok.field name conv spec
                match parseFmtAux fuel rest2 [] with
                | none => none
                | some toks =>
                  if acc.isEmpty then some (tok :: toks)
                  else some (FmtTok.lit (String.mk acc.reverse) :: tok :: toks)
      | [] => none
    else if c = rbraceChar then
      match cs with
      | c2 :: cs2 =>
        if c2 = rbraceChar then parseFmtAux fuel cs2 (rbraceChar :: acc)
        else none
      | [] => none
    else parseFmtAux fuel cs (c :: acc)

/-- `string.Formatter.parse` over a whole template. -/
def parseFormat (formatStr : String) : Option (List FmtTok) :=
  parseFmtAux (formatStr.data.length + 1) formatStr.data []

/-- `SafeFormatter.ALLOWED_PLACEHOLDERS`. -/
def allowedPlaceholders : List String :=
  ["number", "title", "season", "episode", "extension"]

/-- `SafeFormatter.DANGEROUS_PATTERN`: attribute or item access inside a
field name. -/
def dangerousField (name : String) : Bool :=
  name.data.any (fun c => c = '.' ∨ c = '[' ∨ c = ']')

/-- `SafeFormatter.validate_format_string`, reduced to its validity bit
(warnings do not affect validity).  Besides the per-field checks, the
source ends with the common-issue check: a template containing an
opening brace but no closing brace anywhere is invalid ("Unmatched
brace in format string") — this rejects e.g. `"\x7b\x7b"`, whose
braces parse as a literal-brace escape. -/
def validateFormatString (formatStr : String) : Bool :=
  match parseFormat formatStr with
  | none => false
  | some toks =>
    toks.all (fun t =>
      match t with
      | FmtTok.lit _ => true
      | FmtTok.field name conv _ =>
        !dangerousField name && allowedPlaceholders.contains name &&
          (match conv with
           | none => true
           | some c => c = 's' ∨ c = 'r' ∨ c = 'a')) &&
      !(formatStr.data.contains lbraceChar && !formatStr.data.contains rbraceChar)

/-- A context value: Python keeps `number`, `season` and `episode` as
ints and `title`, `extension` as strings. -/
inductive FmtVal where
  | int (n : Nat)
  | str (s : String)
deriving DecidableEq, Repr

/-- The whitelisted context of `format_safe`.  Python's `x or d` yields
`d` both for `None` and for falsy values (`0`, `""`), which for the
optional numbers coincides with `Option.getD 0` and for the title with
the emptiness test. -/
def fmtContext (metadata : EpisodeMetadata) (name : String) : Except String FmtVal :=
  if name = "number" then Except.ok (FmtVal.int (metadata.extractedNumber.getD 0))
  else if name = "title" then
    Except.ok (FmtVal.str (if metadata.cleanedTitle = "" then "untitled"
      else metadata.cleanedTitle))
  else if name = "season" then Except.ok (FmtVal.int (metadata.season.getD 0))
  else if name = "episode" then Except.ok (FmtVal.int (metadata.episode.getD 0))
  else if name = "extension" then Except.ok (FmtVal.str metadata.extension)
  else Except.error "Missing required field"

/-- Recognize a zero-padding decimal spec `0…0Nd` (digits then `d`),
returning the field width. -/
def parseZeroPadSpec (spec : String) : Option Nat :=
  match spec.data with
  | '0' :: rest =>
    let ds := rest.dropLast
    if rest.getLast? = some 'd' ∧ ds.all Char.isDigit then
      some (ds.foldl (fun n c => n * 10 + (c.toNat - 48)) 0)
    else none
  | _ => none

/-- Python `format(n, "0Nd")`. -/
def zeroPad (width n : Nat) : String :=
  let s := toString n
  if s.length < width then String.mk (List.replicate (width - s.length) '0') ++ s
  else s

/-- Render one token against a context. -/
def renderTok (ctx : String → Except String FmtVal) : FmtTok → Except String String
  | FmtTok.lit s => Except.ok s
  | FmtTok.field name conv spec =>
    match ctx name with
    | Except.error e => Except.error e
    | Except.ok v =>
      match conv with
      | some _ => Except.error "Format error: conversion not modelled"
      | none =>
        if spec = "" then
          Except.ok (match v with
            | FmtVal.int n => toString n
            | FmtVal.str s => s)
        else
          match parseZeroPadSpec spec with
          | some width =>
            match v with
            | FmtVal.int n => Except.ok (zeroPad width n)
            | FmtVal.str _ => Except.error "Format error"
          | none => Except.error "Format error: spec not modelled"

/-- Render a token list. -/
def renderToks (ctx : String → Except String FmtVal) : List FmtTok → Except String String
  | [] => Except.ok ""
  | t :: ts =>
    match renderTok ctx t, renderToks ctx ts with
    | Except.ok s, Except.ok rest => Except.ok (s ++ rest)
    | Except.error e, _ => Except.error e
    | _, Except.error e => Except.error e

/-- `SafeFormatter.format_safe`.  The `zeroPadding` argument is accepted
but, as in the source, never used (padding comes from format specs). -/
def formatSafe (formatStr : String) (metadata : EpisodeMetadata)
    (zeroPadding : Nat := 2) : Except String String :=
  if validateFormatString formatStr = false then
    Except.error "invalid format string"
  else
    match parseFormat formatStr with
    | none => Except.error "invalid format string"
    | some toks => renderToks (fmtContext metadata) toks

/-- A template token within the modelled rendering fragment: literal
text, or a conversion-free whitelisted field whose spec is empty or a
zero-padded decimal spec applied to an integer-valued placeholder. -/
def plainTok : FmtTok → Bool
  | FmtTok.lit _ => true
  | FmtTok.field name conv spec =>
    allowedPlaceholders.contains name && conv.isNone &&
      (spec == "" || ((parseZeroPadSpec spec).isSome &&
        (name == "number" || name == "season" || name == "episode")))

/-! ## Transaction builder (`rename_transaction.py`, class `TransactionBuilder`)

The sanitizer and formatter collaborators are external to the core (spec
§1) and are passed in as functions, exactly as `build_transaction`
receives instances.  `uuid.uuid4` draws are modelled by `uuidGen`: the
transaction id is draw 0, the i-th operation's staging id is draw i+1,
matching construction order.  The builder touches no filesystem value by
construction (no `Fs` argument). -/

/-- The loop body of `TransactionBuilder.build_transaction`; `i` counts
the uuid draws already taken. -/
def buildOps (formatString : String) (zeroPadding : Nat)
    (sanitize : String → String)
    (fmt : String → EpisodeMetadata → Nat → Except String String)
    (uuidGen : Nat → String) : Nat → List EpisodeMetadata →
    Except String (List RenameOperation)
  | _, [] => Except.ok []
  | i, meta :: rest =>
    let cleanedTitle := sanitize meta.filePath.stem
    let cleanedMeta : EpisodeMetadata := { meta with cleanedTitle := cleanedTitle }
    match fmt formatString cleanedMeta zeroPadding with
    | Except.error e => Except.error e
    | Except.ok targetBase =>
      let targetNameExt := targetBase ++ meta.extension
      let targetPath : FPath := ⟨meta.filePath.dir, targetNameExt⟩
      let op : RenameOperation :=
        { originalPath := meta.filePath, metadata := cleanedMeta,
          targetName := targetNameExt, targetPath := targetPath,
          stagingId := uuidGen i, stagingPath := none,
          status := RenameStatus.pending, errorMessage := none }
      match buildOps formatString zeroPadding sanitize fmt uuidGen (i + 1) rest with
      | Except.error e => Except.error e
      | Except.ok ops => Except.ok (op :: ops)

/-- `TransactionBuilder.build_transaction`. -/
def buildTransaction (formatString : String) (zeroPadding : Nat)
    (metadataList : List EpisodeMetadata) (sanitize : String → String)
    (fmt : String → EpisodeMetadata → Nat → Except String String)
    (uuidGen : Nat → String) : Except String RenameTransaction :=
  match buildOps formatString zeroPadding sanitize fmt uuidGen 1 metadataList with
  | Except.error e => Except.error e
  | Except.ok ops => Except.ok { operations := ops, transactionId := uuidGen 0 }

/-- The observable output the idempotence claim compares: target names
and target paths of the built operations, in order. -/
def transactionTargets (t : Except String RenameTransaction) :
    Except String (List (String × FPath)) :=
  t.map (fun tr => tr.operations.map (fun op => (op.targetName, op.targetPath)))

/-! ## Transaction manager (`rename_transaction.py`, class
`RenameTransactionManager`)

Failure injection: rename calls are numbered globally in execution
order; `failAt = some k` makes the k-th call to `_safe_rename` raise
(modelling an environmental rename failure), all other calls behave
normally. -/

/-- `TransactionPhase`. -/
inductive TransactionPhase where
  | preflight
  | phaseOne
  | checkpoint
  | phaseTwo
  | commit
  | rollback
deriving DecidableEq, Repr

/-- Errors a single `_safe_rename` call can raise. -/
inductive RenameError where
  | targetExists
  | sourceMissing
  | injectedFailure
deriving DecidableEq, Repr

/-- `RenameTransactionManager._safe_rename`.  Branch order follows the
source: resolved-equality no-op, case-only rename through an
intermediate temporary (its net filesystem effect; the transient
temporary name is not materialised, and like POSIX `rename` the final
step silently replaces an existing target), target-exists refusal, then
the actual rename (the cross-device copy+delete fallback has the same
net effect).  A missing source makes the rename call itself raise. -/
def safeRename (fs : Fs) (source target : FPath) (inject : Bool) :
    Except RenameError Fs :=
  if inject then Except.error RenameError.injectedFailure
  else if source = target then Except.ok fs
  else if strLower source.name = strLower target.name ∧ source.name ≠ target.name then
    if source ∈ fs then Except.ok (Fs.add (Fs.remove fs source) target)
    else Except.error RenameError.sourceMissing
  else if target ∈ fs then Except.error RenameError.targetExists
  else if source ∈ fs then Except.ok (Fs.add (Fs.remove fs source) target)
  else Except.error RenameError.sourceMissing

/-- Execution state: the filesystem and the number of `_safe_rename`
calls made so far (the fault-injection counter). -/
structure ExecState where
  fs : Fs
  calls : Nat
deriving DecidableEq, Repr

/-- One `_safe_rename` call, counted for fault injection. -/
def doRename (failAt : Option Nat) (st : ExecState) (source target : FPath) :
    ExecState × Option RenameError :=
  match safeRename st.fs source target (failAt == some st.calls) with
  | Except.ok fs2 => (⟨fs2, st.calls + 1⟩, none)
  | Except.error e => (⟨st.fs, st.calls + 1⟩, some e)

/-- `_preflight_validation`: every source must exist (files present in
the modelled `Fs` are regular and readable, directories writable — the
remaining Python checks are environmental).  Each operation is assigned
its staging path.  On failure the transaction aborts before any
mutation; the staging paths Python assigned to earlier operations of
the list are dropped with the error, which is observationally
irrelevant (no staging file exists yet). -/
def preflight (fs : Fs) : List RenameOperation →
    Except String (List RenameOperation)
  | [] => Except.ok []
  | op :: rest =>
    if op.originalPath ∈ fs then
      match preflight fs rest with
      | Except.ok rest2 =>
        Except.ok ({ op with stagingPath := some (stagingPathOf op) } :: rest2)
      | Except.error e => Except.error e
    else Except.error "Source file not found"

/-- A placeholder path for the unreachable case of an unset staging
path (preflight always sets it before the phases run). -/
def nullPath : FPath := ⟨"", ""⟩

/-- `_execute_phase_one`: rename each source to its staging path in
order; first failure marks the operation FAILED and aborts, leaving the
remaining operations untouched. -/
def phaseOne (failAt : Option Nat) :
    ExecState → List RenameOperation →
    ExecState × List RenameOperation × Option RenameError
  | st, [] => (st, [], none)
  | st, op :: rest =>
    match doRename failAt st op.originalPath (op.stagingPath.getD nullPath) with
    | (st2, none) =>
      let res := phaseOne failAt st2 rest
      (res.1, { op with status := RenameStatus.staged } :: res.2.1, res.2.2)
    | (st2, some e) =>
      let op2 : RenameOperation := { op with
        status := RenameStatus.failed
        errorMessage := some "rename failed" }
      (st2, op2 :: rest, some e)

/-- `_verify_phase_one`: every operation STAGED and its staging file
present. -/
def verifyPhaseOne (fs : Fs) (ops : List RenameOperation) : Bool :=
  ops.all (fun op =>
    op.status == RenameStatus.staged &&
      (match op.stagingPath with
       | some p => decide (p ∈ fs)
       | none => false))

/-- `_execute_phase_two`: rename each staging file to its final target
in order; first failure marks the operation FAILED and aborts. -/
def phaseTwo (failAt : Option Nat) :
    ExecState → List RenameOperation →
    ExecState × List RenameOperation × Option RenameError
  | st, [] => (st, [], none)
  | st, op :: rest =>
    match doRename failAt st (op.stagingPath.getD nullPath) op.targetPath with
    | (st2, none) =>
      let res := phaseTwo failAt st2 rest
      (res.1, { op with status := RenameStatus.completed } :: res.2.1, res.2.2)
    | (st2, some e) =>
      let op2 : RenameOperation := { op with
        status := RenameStatus.failed
        errorMessage := some "rename failed" }
      (st2, op2 :: rest, some e)

/-- The phase-two reversal loop of `_rollback_transaction`: COMPLETED
operations whose target still exists are renamed target → staging;
individual failures are logged and skipped. -/
def rollbackPhaseTwoLoop (failAt : Option Nat) :
    ExecState → List RenameOperation → ExecState × List RenameOperation
  | st, [] => (st, [])
  | st, op :: rest =>
    if op.status = RenameStatus.completed then
      if op.targetPath ∈ st.fs then
        match doRename failAt st op.targetPath (op.stagingPath.getD nullPath) with
        | (st2, none) =>
          let res := rollbackPhaseTwoLoop failAt st2 rest
          (res.1, { op with status := RenameStatus.staged } :: res.2)
        | (st2, some _) =>
          let res := rollbackPhaseTwoLoop failAt st2 rest
          (res.1, op :: res.2)
      else
        let res := rollbackPhaseTwoLoop failAt st rest
        (res.1, op :: res.2)
    else
      let res := rollbackPhaseTwoLoop failAt st rest
      (res.1, op :: res.2)

/-- The phase-one reversal loop of `_rollback_transaction`: STAGED
operations whose staging file exists are renamed staging → original
(status ROLLED_BACK on success), then any staging file still present is
unlinked regardless of the operation's status. -/
def rollbackPhaseOneLoop (failAt : Option Nat) :
    ExecState → List RenameOperation → ExecState × List RenameOperation
  | st, [] => (st, [])
  | st, op :: rest =>
    let step : ExecState × RenameOperation :=
      if op.status = RenameStatus.staged then
        match op.stagingPath with
        | some sp =>
          if sp ∈ st.fs then
            match doRename failAt st sp op.originalPath with
            | (st2, none) => (st2, { op with status := RenameStatus.rolledBack })
            | (st2, some _) => (st2, op)
          else (st, op)
        | none => (st, op)
      else (st, op)
    let st3 : ExecState :=
      match op.stagingPath with
      | some sp =>
        if sp ∈ step.1.fs then ⟨Fs.remove step.1.fs sp, step.1.calls⟩ else step.1
      | none => step.1
    let res := rollbackPhaseOneLoop failAt st3 rest
    (res.1, step.2 :: res.2)

/-- `_rollback_transaction`.  The `phase` parameter is the manager's
`current_phase` attribute as `_rollback_transaction` reads it. -/
def rollbackTransaction (failAt : Option Nat) (phase : TransactionPhase)
    (st : ExecState) (ops : List RenameOperation) :
    ExecState × List RenameOperation :=
  if phase = TransactionPhase.preflight ∨ phase = TransactionPhase.commit then
    (st, ops)
  else
    let r1 := if phase = TransactionPhase.phaseTwo then
        rollbackPhaseTwoLoop failAt st ops
      else (st, ops)
    rollbackPhaseOneLoop failAt r1.1 r1.2

/-- Result of `execute_transaction`: final filesystem, final operation
list, and the returned boolean (`true` = committed, `false` = rolled
back). -/
structure ExecResult where
  fs : Fs
  ops : List RenameOperation
  success : Bool
deriving DecidableEq, Repr

/-- `RenameTransactionManager.execute_transaction`.  Note: the `except`
handler sets `current_phase := ROLLBACK` before invoking
`_rollback_transaction`, so rollback always observes phase ROLLBACK —
its PREFLIGHT/COMMIT early return and its PHASE_TWO reversal branch are
dead code; the embedding reproduces this by passing
`TransactionPhase.rollback` on every failure path. -/
def executeTransaction (fs : Fs) (failAt : Option Nat)
    (ops : List RenameOperation) : ExecResult :=
  match preflight fs ops with
  | Except.error _ =>
    let r := rollbackTransaction failAt TransactionPhase.rollback ⟨fs, 0⟩ ops
    ⟨r.1.fs, r.2, false⟩
  | Except.ok ops1 =>
    match phaseOne failAt ⟨fs, 0⟩ ops1 with
    | (st1, ops2, some _) =>
      let r := rollbackTransaction failAt TransactionPhase.rollback st1 ops2
      ⟨r.1.fs, r.2, false⟩
    | (st1, ops2, none) =>
      if verifyPhaseOne st1.fs ops2 then
        match phaseTwo failAt st1 ops2 with
        | (st2, ops3, some _) =>
          let r := rollbackTransaction failAt TransactionPhase.rollback st2 ops3
          ⟨r.1.fs, r.2, false⟩
        | (st2, ops3, none) =>
          if ops3.all (fun op => op.status == RenameStatus.completed) then
            ⟨st2.fs, ops3, true⟩
          else
            let r := rollbackTransaction failAt TransactionPhase.rollback st2 ops3
            ⟨r.1.fs, r.2, false⟩
      else
        let r := rollbackTransaction failAt TransactionPhase.rollback st1 ops2
        ⟨r.1.fs, r.2, false⟩

/-! ## Concrete fixtures

Small concrete metadata values, operations and filesystems used by the
counterexamples and witness instantiations below. -/

/-- A bare metadata value for a file `nm` in directory `d`. -/
def mkMeta (nm : String) (num : Option Nat) : EpisodeMetadata :=
  { originalName := nm, filePath := ⟨"d", nm⟩, season := none, episode := none,
    extractedNumber := num, confidence := 0, cleanedTitle := "", extension := ".mp4",
    extractionMethod := "" }

/-- A pending rename operation `nm → tgt` in directory `d` with staging
id `sid`. -/
def mkOp (nm tgt sid : String) : RenameOperation :=
  { originalPath := ⟨"d", nm⟩, metadata := mkMeta nm none,
    targetName := tgt, targetPath := ⟨"d", tgt⟩, stagingId := sid,
    stagingPath := none, status := RenameStatus.pending, errorMessage := none }

/-- Two-operation transaction for the manager claims. -/
def txOps : List RenameOperation :=
  [mkOp "a.mp4" "1. A.mp4" "u0", mkOp "b.mp4" "2. B.mp4" "u1"]

/-- Its starting filesystem: exactly the two source files. -/
def txFs : Fs := [⟨"d", "a.mp4"⟩, ⟨"d", "b.mp4"⟩]

/-- A two-cycle: A→B, B→A. -/
def cycOps : List RenameOperation :=
  [mkOp "A.mp4" "B.mp4" "v0", mkOp "B.mp4" "A.mp4" "v1"]

/-- A tail leading into a two-cycle: X→A, A→B, B→A.  The depth-first
search from X marks A and B visited without detecting the cycle, and
the later starts are skipped. -/
def tailCycOps : List RenameOperation :=
  [mkOp "X.mp4" "A.mp4" "w0", mkOp "A.mp4" "B.mp4" "w1", mkOp "B.mp4" "A.mp4" "w2"]

/-- Metadata whose extracted number is at least the sorter's sentinel
999999, together with an unnumbered entry. -/
def bigNumMeta : EpisodeMetadata := mkMeta "b.mp4" (some 1000000)

def noNumMeta : EpisodeMetadata := mkMeta "a.mp4" none

/-- Duplicate-target fixture: same target name up to case. -/
def dupTargetOps : List RenameOperation :=
  [mkOp "x.mp4" "Episode 01.mp4" "y0", mkOp "y.mp4" "episode 01.mp4" "y1"]

/-- Numbering {1, 2, 4, 5}: the gap is {3}. -/
def gapMetas : List EpisodeMetadata :=
  [mkMeta "e1.mp4" (some 1), mkMeta "e2.mp4" (some 2),
   mkMeta "e4.mp4" (some 4), mkMeta "e5.mp4" (some 5)]

/-! # Theorems -/

/-! ## C9 — confidence bounds on metadata construction -/

/-- C9: constructing an `EpisodeMetadata` value succeeds exactly when
the confidence lies in the closed interval [0, 1]; any confidence
outside it makes `__post_init__` raise, i.e. `make` return `none`. -/
theorem claim_c9_confidence (m : EpisodeMetadata) :
    (EpisodeMetadata.make m).isSome ↔ (0 ≤ m.confidence ∧ m.confidence ≤ 1) := by
  unfold EpisodeMetadata.make
  split
  · simpa
  · simp only [Option.isSome_none, Bool.false_eq_true, false_iff]
    assumption

/-- Witness for C9 at a concrete metadata value (confidence 0, inside
the interval) and a concrete out-of-range value (confidence 2). -/
theorem claim_c9_confidence_witness :
    (EpisodeMetadata.make (mkMeta "a.mp4" none)).isSome ∧
      ¬ (EpisodeMetadata.make { mkMeta "a.mp4" none with confidence := 2 }).isSome :=
  ⟨(claim_c9_confidence (mkMeta "a.mp4" none)).mpr (by decide),
   fun h => by
    have h2 := (claim_c9_confidence { mkMeta "a.mp4" none with confidence := 2 }).mp h
    exact absurd h2.2 (by decide)⟩

/-! ## C3 — the safe rename refuses to overwrite an existing target -/

/-- C3: for distinct source and target where the rename is neither a
no-op nor a case-only change and a file already exists at the target,
`_safe_rename` raises the dedicated target-exists error
(`FileExistsError`).  An error result of `safeRename` carries no new
filesystem: the existing target file is not replaced. -/
theorem claim_c3_target_exists (fs : Fs) (source target : FPath)
    (hne : source ≠ target)
    (hcase : ¬ (strLower source.name = strLower target.name ∧ source.name ≠ target.name))
    (hex : target ∈ fs) :
    safeRename fs source target false = Except.error RenameError.targetExists := by
  unfold safeRename
  rw [if_neg (by simp), if_neg hne, if_neg hcase, if_pos hex]

/-- Witness for C3 at a concrete filesystem and path pair. -/
theorem claim_c3_target_exists_witness :
    safeRename [⟨"d", "t.mp4"⟩] ⟨"d", "s.mp4"⟩ ⟨"d", "t.mp4"⟩ false =
      Except.error RenameError.targetExists :=
  claim_c3_target_exists [⟨"d", "t.mp4"⟩] ⟨"d", "s.mp4"⟩ ⟨"d", "t.mp4"⟩
    (by decide) (by decide) (by decide)

/-! ## C1 — rollback does not restore the original state -/

/-- C1 (failing input): two-file transaction, every preflight check
passes, the phase-two rename of the second operation (global rename
call 3) fails.  The code's rollback then leaves the first file at its
target (the phase-two reversal branch is dead because `current_phase`
was overwritten with ROLLBACK) and *deletes* the second file from its
staging path via the orphan-cleanup `unlink`, destroying it.  Contrary
to the claim: statuses end `[COMPLETED, FAILED]` (neither ROLLED_BACK
nor PENDING), neither original file is at its original path, and the
first target file remains. -/
theorem claim_c1_rollback_bug :
    (executeTransaction txFs (some 3) txOps).fs = [⟨"d", "1. A.mp4"⟩] ∧
    (executeTransaction txFs (some 3) txOps).ops.map (fun op => op.status) =
      [RenameStatus.completed, RenameStatus.failed] ∧
    (⟨"d", "a.mp4"⟩ : FPath) ∉ (executeTransaction txFs (some 3) txOps).fs ∧
    (⟨"d", "b.mp4"⟩ : FPath) ∉ (executeTransaction txFs (some 3) txOps).fs ∧
    (executeTransaction txFs (some 3) txOps).success = false := by
  refine ⟨?_, ?_, ?_, ?_, ?_⟩ <;> decide

/-! ## C8 — numbering gaps -/

/-- C8: when the metadata list has at least one extracted number (so the
minimum `mn` and maximum `mx` exist), `detect_number_gaps` returns
exactly the integers of the closed interval [mn, mx] that are not among
the extracted numbers. -/
theorem claim_c8_number_gaps (metas : List EpisodeMetadata) (mn mx : Nat)
    (hmin : (metas.filterMap (fun m => m.extractedNumber)).min? = some mn)
    (hmax : (metas.filterMap (fun m => m.extractedNumber)).max? = some mx)
    (n : Nat) :
    n ∈ detectNumberGaps metas ↔
      (mn ≤ n ∧ n ≤ mx ∧ n ∉ metas.filterMap (fun m => m.extractedNumber)) := by
  have hmnx : mn ≤ mx :=
    (List.min?_eq_some_iff'.mp hmin).2 _ (List.max?_eq_some_iff'.mp hmax).1
  simp only [detectNumberGaps]
  rw [hmin, hmax]
  simp only [List.mem_filter, List.mem_range'_1, Bool.not_eq_true', eq_iff_iff]
  constructor
  · rintro ⟨⟨h1, h2⟩, h3⟩
    refine ⟨h1, by omega, ?_⟩
    simpa using h3
  · rintro ⟨h1, h2, h3⟩
    refine ⟨⟨h1, by omega⟩, ?_⟩
    simpa using h3

/-- Witness for C8: numbers {1, 2, 4, 5} report exactly the gap {3}. -/
theorem claim_c8_number_gaps_witness :
    3 ∈ detectNumberGaps gapMetas ∧ detectNumberGaps gapMetas = [3] :=
  ⟨(claim_c8_number_gaps gapMetas 1 5 (by decide) (by decide) 3).mpr (by decide),
   by decide⟩

/-! ## C7 — duplicate targets -/

/-- Keys of the grouping map after an insertion: unchanged when the key
is already present, appended otherwise. -/
theorem insertTarget_keys (m : List (String × List RenameOperation)) (k : String)
    (op : RenameOperation) :
    (insertTarget m k op).map Prod.fst =
      if k ∈ m.map Prod.fst then m.map Prod.fst else m.map Prod.fst ++ [k] := by
  induction m with
  | nil => simp [insertTarget]
  | cons hd tl ih =>
    obtain ⟨k2, g2⟩ := hd
    by_cases hk : k2 = k
    · subst hk
      simp [insertTarget]
    · simp only [insertTarget, if_neg hk, List.map_cons, ih, List.mem_cons]
      by_cases hmem : k ∈ tl.map Prod.fst
      · simp [hmem, Ne.symm hk]
      · simp [hmem, Ne.symm hk]

/-- Membership in the grouping map after an insertion, assuming the keys
are distinct (which `insertTarget` maintains from the empty map). -/
theorem insertTarget_mem_iff (k : String) (op : RenameOperation) :
    ∀ (m : List (String × List RenameOperation)),
    (m.map Prod.fst).Nodup →
    ∀ (k2 : String) (g2 : List RenameOperation),
    ((k2, g2) ∈ insertTarget m k op ↔
      (if k2 = k then
        (∃ g0, (k2, g0) ∈ m ∧ g2 = g0 ++ [op]) ∨ (k ∉ m.map Prod.fst ∧ g2 = [op])
       else (k2, g2) ∈ m))
  | [], hnd, k2, g2 => by
    by_cases hk : k2 = k
    · subst hk
      simp [insertTarget]
    · simp [insertTarget, hk]
  | (k3, g3) :: tl, hnd, k2, g2 => by
    rw [List.map_cons, List.nodup_cons] at hnd
    obtain ⟨hk3, hndtl⟩ := hnd
    have hnotin : ∀ g4, (k3, g4) ∉ tl := by
      intro g4 hmem
      exact hk3 (List.mem_map.mpr ⟨(k3, g4), hmem, rfl⟩)
    by_cases h3 : k3 = k
    · subst h3
      simp only [insertTarget, if_pos rfl]
      by_cases hk : k2 = k3
      · subst hk
        rw [if_pos rfl]
        constructor
        · intro h
          rcases List.mem_cons.mp h with h | h
          · refine Or.inl ⟨g3, List.mem_cons_self _ _, ?_⟩
            injection h
          · exact absurd h (hnotin _)
        · rintro (⟨g0, hg0, he⟩ | ⟨hnot, he⟩)
          · rcases List.mem_cons.mp hg0 with h | h
            · have hg : g0 = g3 := by injection h
              subst hg
              subst he
              exact List.mem_cons_self _ _
            · exact absurd h (hnotin _)
          · exact absurd (by simp : k2 ∈ ((k2, g3) :: tl).map Prod.fst) hnot
      · rw [if_neg hk]
        constructor
        · intro h
          rcases List.mem_cons.mp h with h | h
          · exact absurd (congrArg Prod.fst h) hk
          · exact List.mem_cons_of_mem _ h
        · intro h
          rcases List.mem_cons.mp h with h | h
          · exact absurd (congrArg Prod.fst h) hk
          · exact List.mem_cons_of_mem _ h
    · have ih := insertTarget_mem_iff k op tl hndtl k2 g2
      simp only [insertTarget, if_neg h3]
      by_cases hk : k2 = k
      · subst hk
        rw [if_pos rfl]
        rw [if_pos rfl] at ih
        constructor
        · intro h
          rcases List.mem_cons.mp h with h | h
          · exact absurd (congrArg Prod.fst h).symm h3
          · rcases ih.mp h with ⟨g0, hg0, he⟩ | ⟨hnot, he⟩
            · exact Or.inl ⟨g0, List.mem_cons_of_mem _ hg0, he⟩
            · refine Or.inr ⟨?_, he⟩
              intro hmem
              rw [List.map_cons] at hmem
              rcases List.mem_cons.mp hmem with h2 | h2
              · exact h3 h2.symm
              · exact hnot h2
        · rintro (⟨g0, hg0, he⟩ | ⟨hnot, he⟩)
          · rcases List.mem_cons.mp hg0 with h | h
            · exact absurd (congrArg Prod.fst h).symm h3
            · exact List.mem_cons_of_mem _ (ih.mpr (Or.inl ⟨g0, h, he⟩))
          · refine List.mem_cons_of_mem _ (ih.mpr (Or.inr ⟨?_, he⟩))
            intro hmem
            exact hnot (by rw [List.map_cons]; exact List.mem_cons_of_mem _ hmem)
      · rw [if_neg hk]
        rw [if_neg hk] at ih
        constructor
        · intro h
          rcases List.mem_cons.mp h with h | h
          · exact h ▸ List.mem_cons_self _ _
          · exact List.mem_cons_of_mem _ (ih.mp h)
        · intro h
          rcases List.mem_cons.mp h with h | h
          · exact h ▸ List.mem_cons_self _ _
          · exact List.mem_cons_of_mem _ (ih.mpr h)

/-- The grouping invariant carried through the fold of
`detect_duplicate_targets`: the accumulated map has distinct keys and
each entry is exactly the subsequence of already-processed operations
with that lowercased target name. -/
theorem targetMap_fold_inv (ops : List RenameOperation) :
    ∀ (processed : List RenameOperation) (m : List (String × List RenameOperation)),
    (m.map Prod.fst).Nodup →
    (∀ k g, (k, g) ∈ m ↔
      (g = processed.filter (fun op => strLower op.targetName == k) ∧ g ≠ [])) →
    ((ops.foldl (fun m op => insertTarget m (strLower op.targetName) op) m).map
        Prod.fst).Nodup ∧
    (∀ k g, (k, g) ∈ ops.foldl (fun m op => insertTarget m (strLower op.targetName) op) m ↔
      (g = (processed ++ ops).filter (fun op => strLower op.targetName == k) ∧ g ≠ [])) := by
  induction ops with
  | nil =>
    intro processed m hnd hiff
    simpa using ⟨hnd, hiff⟩
  | cons op rest ih =>
    intro processed m hnd hiff
    have hkeys : ∀ k2, k2 ∈ m.map Prod.fst ↔
        processed.filter (fun o => strLower o.targetName == k2) ≠ [] := by
      intro k2
      constructor
      · intro hk2
        obtain ⟨a, hmem, he⟩ := List.mem_map.mp hk2
        obtain ⟨ka, ga⟩ := a
        cases he
        obtain ⟨hg, hne⟩ := (hiff _ _).mp hmem
        rw [← hg]
        exact hne
      · intro hne
        exact List.mem_map.mpr ⟨(k2, _), (hiff k2 _).mpr ⟨rfl, hne⟩, rfl⟩
    have hnd2 : ((insertTarget m (strLower op.targetName) op).map Prod.fst).Nodup := by
      rw [insertTarget_keys]
      split
      · exact hnd
      · next hfresh =>
        rw [List.nodup_append]
        refine ⟨hnd, List.nodup_singleton _, ?_⟩
        intro a ha hb
        rw [List.mem_singleton] at hb
        subst hb
        exact hfresh ha
    have hiff2 : ∀ k g, (k, g) ∈ insertTarget m (strLower op.targetName) op ↔
        (g = (processed ++ [op]).filter (fun o => strLower o.targetName == k) ∧
          g ≠ []) := by
      intro k g
      rw [insertTarget_mem_iff (strLower op.targetName) op m hnd k g,
        List.filter_append]
      by_cases hk : k = strLower op.targetName
      · subst hk
        rw [if_pos rfl, List.filter_singleton]
        simp only [beq_self_eq_true, Bool.cond_true]
        constructor
        · rintro (⟨g0, hg0, he⟩ | ⟨hfresh, he⟩)
          · obtain ⟨hg0f, hg0ne⟩ := (hiff _ _).mp hg0
            subst he
            subst hg0f
            exact ⟨rfl, by simp⟩
          · subst he
            have hemp : processed.filter
                (fun o => strLower o.targetName == strLower op.targetName) = [] := by
              by_contra hne
              exact hfresh ((hkeys _).mpr hne)
            rw [hemp]
            exact ⟨rfl, by simp⟩
        · rintro ⟨he, hne⟩
          by_cases hemp : processed.filter
              (fun o => strLower o.targetName == strLower op.targetName) = []
          · refine Or.inr ⟨?_, ?_⟩
            · intro hmem
              exact (hkeys _).mp hmem hemp
            · rw [hemp] at he
              simpa using he
          · exact Or.inl ⟨_, (hiff _ _).mpr ⟨rfl, hemp⟩, he⟩
      · have hbeq : (strLower op.targetName == k) = false := by
          simp only [beq_eq_false_iff_ne, ne_eq]
          exact fun h => hk h.symm
        rw [if_neg hk, List.filter_singleton, hbeq, Bool.cond_false, List.append_nil]
        exact hiff k g
    have hstep := ih (processed ++ [op]) (insertTarget m (strLower op.targetName) op)
      hnd2 hiff2
    rw [List.foldl_cons]
    constructor
    · exact hstep.1
    · intro k g
      rw [hstep.2 k g, List.append_assoc, List.singleton_append]

/-- C7: `detect_duplicate_targets` reports exactly the case-insensitive
target-name groups of size at least 2: `(k, g)` is reported precisely
when `g` is the whole (ordered) list of operations whose lowercased
target name is `k` and `g` has at least two members. -/
theorem claim_c7_duplicate_targets (ops : List RenameOperation) (k : String)
    (g : List RenameOperation) :
    (k, g) ∈ detectDuplicateTargets ops ↔
      (g = ops.filter (fun op => strLower op.targetName == k) ∧ 2 ≤ g.length) := by
  have hinv := targetMap_fold_inv ops [] [] (by simp) (by simp)
  unfold detectDuplicateTargets
  rw [List.mem_filter, hinv.2 k g]
  constructor
  · rintro ⟨⟨hg, _⟩, hlen⟩
    refine ⟨hg, ?_⟩
    simpa using hlen
  · rintro ⟨hg, hlen⟩
    refine ⟨⟨hg, ?_⟩, by simpa using hlen⟩
    intro h
    rw [h] at hlen
    simp at hlen

/-- Witness for C7: targets `Episode 01.mp4` and `episode 01.mp4` are
grouped together despite differing in case, and they are the only
reported group. -/
theorem claim_c7_duplicate_targets_witness :
    ("episode 01.mp4", dupTargetOps) ∈ detectDuplicateTargets dupTargetOps ∧
      detectDuplicateTargets dupTargetOps = [("episode 01.mp4", dupTargetOps)] :=
  ⟨(claim_c7_duplicate_targets dupTargetOps "episode 01.mp4" dupTargetOps).mpr
      ⟨by decide, by decide⟩,
   by decide⟩

/-! ## C5 — natural sort order

The comparison driving `sorted` is a strict weak order; the lemmas
below establish asymmetry, connexity-up-to-equality and transitivity of
the key comparison, giving totality and transitivity of the stable-sort
placement relation `metaLe`. -/

theorem charListLtb_asymm : ∀ (a b : List Char),
    charListLtb a b = true → charListLtb b a = false
  | [], [] => by simp [charListLtb]
  | [], _ :: _ => by simp [charListLtb]
  | _ :: _, [] => by simp [charListLtb]
  | a :: as, b :: bs => by
    simp only [charListLtb, Bool.or_eq_true, Bool.and_eq_true, decide_eq_true_eq,
      beq_iff_eq, Bool.or_eq_false_iff, Bool.and_eq_false_iff, decide_eq_false_iff_not,
      Nat.not_lt, beq_eq_false_iff_ne, ne_eq]
    rintro (h | ⟨he, hrec⟩)
    · exact ⟨by omega, Or.inl (by omega)⟩
    · exact ⟨by omega, Or.inr (charListLtb_asymm as bs hrec)⟩

theorem charListLtb_eq_of_not : ∀ (a b : List Char),
    charListLtb a b = false → charListLtb b a = false → a = b
  | [], [] => by simp
  | [], _ :: _ => by simp [charListLtb]
  | _ :: _, [] => by simp [charListLtb]
  | a :: as, b :: bs => by
    simp only [charListLtb, Bool.or_eq_false_iff, Bool.and_eq_false_iff,
      decide_eq_false_iff_not, Nat.not_lt, beq_eq_false_iff_ne, ne_eq]
    rintro ⟨hab, h1⟩ ⟨hba, h2⟩
    have he : a = b := Char.eq_of_val_eq (UInt32.ext (by
      have e1 : a.toNat = a.val.toNat := rfl
      have e2 : b.toNat = b.val.toNat := rfl
      omega))
    subst he
    rcases h1 with h1 | h1
    · omega
    · rcases h2 with h2 | h2
      · omega
      · rw [charListLtb_eq_of_not as bs h1 h2]

theorem charListLtb_trans : ∀ (a b c : List Char),
    charListLtb a b = true → charListLtb b c = true → charListLtb a c = true
  | [], [], _ :: _ => by simp [charListLtb]
  | [], _ :: _, _ :: _ => by simp [charListLtb]
  | a :: as, b :: bs, c :: cs => by
    simp only [charListLtb, Bool.or_eq_true, Bool.and_eq_true, decide_eq_true_eq,
      beq_iff_eq]
    rintro (h1 | ⟨he1, hr1⟩) (h2 | ⟨he2, hr2⟩)
    · exact Or.inl (by omega)
    · exact Or.inl (by omega)
    · exact Or.inl (by omega)
    · exact Or.inr ⟨by omega, charListLtb_trans as bs cs hr1 hr2⟩
  | [], [], [] => by simp [charListLtb]
  | [], _ :: _, [] => by simp [charListLtb]
  | _ :: _, [], _ => by simp [charListLtb]
  | _ :: _, _ :: _, [] => by simp [charListLtb]

theorem strLtb_eq_of_not (a b : String) (h1 : strLtb a b = false)
    (h2 : strLtb b a = false) : a = b := by
  have := charListLtb_eq_of_not a.data b.data h1 h2
  cases a
  cases b
  rw [show String.mk _ = String.mk _ from congrArg String.mk this]

theorem natKeyPartLtb_asymm : ∀ (a b : NatKeyPart),
    NatKeyPart.ltb a b = true → NatKeyPart.ltb b a = false
  | NatKeyPart.num a, NatKeyPart.num b => by
    simp only [NatKeyPart.ltb, decide_eq_true_eq, decide_eq_false_iff_not, Nat.not_lt]
    omega
  | NatKeyPart.str a, NatKeyPart.str b => fun h => charListLtb_asymm _ _ h
  | NatKeyPart.num _, NatKeyPart.str _ => fun _ => rfl
  | NatKeyPart.str _, NatKeyPart.num _ => by simp [NatKeyPart.ltb]

theorem natKeyPartLtb_eq_of_not : ∀ (a b : NatKeyPart),
    NatKeyPart.ltb a b = false → NatKeyPart.ltb b a = false → a = b
  | NatKeyPart.num a, NatKeyPart.num b => by
    simp only [NatKeyPart.ltb, decide_eq_false_iff_not, Nat.not_lt, NatKeyPart.num.injEq]
    omega
  | NatKeyPart.str a, NatKeyPart.str b => by
    simp only [NatKeyPart.ltb, NatKeyPart.str.injEq]
    exact strLtb_eq_of_not a b
  | NatKeyPart.num _, NatKeyPart.str _ => by simp [NatKeyPart.ltb]
  | NatKeyPart.str _, NatKeyPart.num _ => by simp [NatKeyPart.ltb]

theorem natKeyPartLtb_trans : ∀ (a b c : NatKeyPart),
    NatKeyPart.ltb a b = true → NatKeyPart.ltb b c = true → NatKeyPart.ltb a c = true
  | NatKeyPart.num a, NatKeyPart.num b, NatKeyPart.num c => by
    simp only [NatKeyPart.ltb, decide_eq_true_eq]
    omega
  | NatKeyPart.str a, NatKeyPart.str b, NatKeyPart.str c => fun h1 h2 =>
    charListLtb_trans _ _ _ h1 h2
  | NatKeyPart.num _, NatKeyPart.num _, NatKeyPart.str _ => fun _ _ => rfl
  | NatKeyPart.num _, NatKeyPart.str _, NatKeyPart.str _ => fun _ _ => rfl
  | NatKeyPart.num _, NatKeyPart.str _, NatKeyPart.num _ => by simp [NatKeyPart.ltb]
  | NatKeyPart.str _, NatKeyPart.num _, _ => by simp [NatKeyPart.ltb]
  | NatKeyPart.str _, NatKeyPart.str _, NatKeyPart.num _ => by simp [NatKeyPart.ltb]

theorem natKeyListLtb_asymm : ∀ (a b : List NatKeyPart),
    natKeyListLtb a b = true → natKeyListLtb b a = false
  | [], [] => by simp [natKeyListLtb]
  | [], _ :: _ => by simp [natKeyListLtb]
  | _ :: _, [] => by simp [natKeyListLtb]
  | a :: as, b :: bs => by
    simp only [natKeyListLtb, Bool.or_eq_true, Bool.and_eq_true, beq_iff_eq,
      Bool.or_eq_false_iff, Bool.and_eq_false_iff, beq_eq_false_iff_ne, ne_eq]
    rintro (h | ⟨he, hrec⟩)
    · refine ⟨natKeyPartLtb_asymm a b h, Or.inl ?_⟩
      intro he2
      rw [he2] at h
      have hf := natKeyPartLtb_asymm a a h
      rw [hf] at h
      exact Bool.noConfusion h
    · refine ⟨?_, Or.inr (natKeyListLtb_asymm as bs hrec)⟩
      rw [← he]
      by_cases hlt : NatKeyPart.ltb a a = true
      · exact natKeyPartLtb_asymm a a hlt
      · simpa using hlt

theorem natKeyListLtb_eq_of_not : ∀ (a b : List NatKeyPart),
    natKeyListLtb a b = false → natKeyListLtb b a = false → a = b
  | [], [] => by simp
  | [], _ :: _ => by simp [natKeyListLtb]
  | _ :: _, [] => by simp [natKeyListLtb]
  | a :: as, b :: bs => by
    simp only [natKeyListLtb, Bool.or_eq_false_iff, Bool.and_eq_false_iff,
      beq_eq_false_iff_ne, ne_eq, List.cons.injEq]
    rintro ⟨hab, h1⟩ ⟨hba, h2⟩
    have he : a = b := natKeyPartLtb_eq_of_not a b hab hba
    subst he
    rcases h1 with h1 | h1
    · exact absurd rfl h1
    · rcases h2 with h2 | h2
      · exact absurd rfl h2
      · exact ⟨rfl, natKeyListLtb_eq_of_not as bs h1 h2⟩

theorem natKeyListLtb_trans : ∀ (a b c : List NatKeyPart),
    natKeyListLtb a b = true → natKeyListLtb b c = true → natKeyListLtb a c = true
  | [], [], _ :: _ => by simp [natKeyListLtb]
  | [], _ :: _, _ :: _ => by simp [natKeyListLtb]
  | a :: as, b :: bs, c :: cs => by
    simp only [natKeyListLtb, Bool.or_eq_true, Bool.and_eq_true, beq_iff_eq]
    rintro (h1 | ⟨he1, hr1⟩) (h2 | ⟨he2, hr2⟩)
    · exact Or.inl (natKeyPartLtb_trans a b c h1 h2)
    · subst he2
      exact Or.inl h1
    · subst he1
      exact Or.inl h2
    · subst he1
      subst he2
      exact Or.inr ⟨rfl, natKeyListLtb_trans as bs cs hr1 hr2⟩
  | [], [], [] => by simp [natKeyListLtb]
  | [], _ :: _, [] => by simp [natKeyListLtb]
  | _ :: _, [], _ => by simp [natKeyListLtb]
  | _ :: _, _ :: _, [] => by simp [natKeyListLtb]

theorem metaKeyLtb_asymm (a b : Nat × List NatKeyPart)
    (h : metaKeyLtb a b = true) : metaKeyLtb b a = false := by
  revert h
  simp only [metaKeyLtb, Bool.or_eq_true, Bool.and_eq_true, decide_eq_true_eq,
    beq_iff_eq, Bool.or_eq_false_iff, Bool.and_eq_false_iff, decide_eq_false_iff_not,
    Nat.not_lt, beq_eq_false_iff_ne, ne_eq]
  rintro (h | ⟨he, hrec⟩)
  · exact ⟨by omega, Or.inl (by omega)⟩
  · exact ⟨by omega, Or.inr (natKeyListLtb_asymm _ _ hrec)⟩

theorem metaKeyLtb_trans (a b c : Nat × List NatKeyPart)
    (h1 : metaKeyLtb a b = true) (h2 : metaKeyLtb b c = true) :
    metaKeyLtb a c = true := by
  revert h1 h2
  simp only [metaKeyLtb, Bool.or_eq_true, Bool.and_eq_true, decide_eq_true_eq,
    beq_iff_eq]
  rintro (h1 | ⟨he1, hr1⟩) (h2 | ⟨he2, hr2⟩)
  · exact Or.inl (by omega)
  · exact Or.inl (by omega)
  · exact Or.inl (by omega)
  · exact Or.inr ⟨by omega, natKeyListLtb_trans _ _ _ hr1 hr2⟩

theorem metaKeyLtb_eq_of_not (a b : Nat × List NatKeyPart)
    (h1 : metaKeyLtb a b = false) (h2 : metaKeyLtb b a = false) : a = b := by
  revert h1 h2
  simp only [metaKeyLtb, Bool.or_eq_false_iff, Bool.and_eq_false_iff,
    decide_eq_false_iff_not, Nat.not_lt, beq_eq_false_iff_ne, ne_eq]
  rintro ⟨hab, hr1⟩ ⟨hba, hr2⟩
  have he : a.1 = b.1 := by omega
  rcases hr1 with h | h
  · exact absurd he h
  · rcases hr2 with h2 | h2
    · exact absurd he.symm h2
    · exact Prod.ext he (natKeyListLtb_eq_of_not _ _ h h2)

theorem metaLe_total (a b : EpisodeMetadata) : metaLe a b ∨ metaLe b a := by
  unfold metaLe
  by_cases h : metaKeyLtb (metaSortKey b) (metaSortKey a) = true
  · exact Or.inr (metaKeyLtb_asymm _ _ h)
  · exact Or.inl (by simpa using h)

theorem metaLe_trans (a b c : EpisodeMetadata) (h1 : metaLe a b) (h2 : metaLe b c) :
    metaLe a c := by
  unfold metaLe at h1 h2 ⊢
  by_contra h
  have hca : metaKeyLtb (metaSortKey c) (metaSortKey a) = true := by
    simpa using h
  by_cases hab : metaKeyLtb (metaSortKey a) (metaSortKey b) = true
  · have hcb := metaKeyLtb_trans _ _ _ hca hab
    rw [h2] at hcb
    exact Bool.noConfusion hcb
  · have hab2 : metaKeyLtb (metaSortKey a) (metaSortKey b) = false := by simpa using hab
    have heq := metaKeyLtb_eq_of_not _ _ hab2 h1
    rw [heq] at hca
    rw [h2] at hca
    exact Bool.noConfusion hca

/-- The sort comparison only lets `a` precede `b` when `a`'s effective
number is no larger. -/
theorem metaLe_effectiveNumber {a b : EpisodeMetadata} (h : metaLe a b) :
    effectiveNumber a ≤ effectiveNumber b := by
  unfold metaLe metaKeyLtb at h
  rw [Bool.or_eq_false_iff] at h
  have := h.1
  rw [decide_eq_false_iff_not] at this
  simpa [metaSortKey, effectiveNumber] using this

/-- C5 (amended): `sort_metadata` returns a permutation of its input
ordered by effective primary number, where an absent number is replaced
by the sentinel 999999.  Hence entries lacking a number come after all
entries with a number below 999999 and numbered entries appear in
ascending numeric order — but an entry whose number is at least 999999
may sort among or after the unnumbered entries, which is what the
counterexample below exhibits against the claim as stated. -/
theorem claim_c5_natural_sort_amended (l : List EpisodeMetadata) :
    List.Sorted (fun a b => effectiveNumber a ≤ effectiveNumber b) (sortMetadata l) ∧
      (sortMetadata l).Perm l := by
  constructor
  · haveI : IsTotal EpisodeMetadata metaLe := ⟨metaLe_total⟩
    haveI : IsTrans EpisodeMetadata metaLe := ⟨metaLe_trans⟩
    exact (List.sorted_insertionSort metaLe l).imp (fun h => metaLe_effectiveNumber h)
  · exact List.perm_insertionSort metaLe l

/-- C5 (counterexample to the claim as stated): an entry carrying the
primary number 1000000 sorts *after* an entry with no number at all,
because the sorter encodes "no number" as 999999.  The claim "every
entry lacking a primary number appears after all entries that have one"
is false at this input. -/
theorem claim_c5_natural_sort_counterexample :
    sortMetadata [bigNumMeta, noNumMeta] = [noNumMeta, bigNumMeta] ∧
      bigNumMeta.extractedNumber = some 1000000 ∧
      noNumMeta.extractedNumber = none := by
  refine ⟨by decide, rfl, rfl⟩

/-! ## C6 — the transaction builder is a pure function of its inputs -/

/-- The target names and paths produced by the builder loop do not
depend on the uuid stream (which only feeds the staging ids) nor on the
position of the stream counter. -/
theorem buildOps_targets (formatString : String) (zeroPadding : Nat)
    (sanitize : String → String)
    (fmt : String → EpisodeMetadata → Nat → Except String String)
    (g1 g2 : Nat → String) :
    ∀ (metas : List EpisodeMetadata) (i j : Nat),
    (buildOps formatString zeroPadding sanitize fmt g1 i metas).map
        (List.map (fun op => (op.targetName, op.targetPath))) =
      (buildOps formatString zeroPadding sanitize fmt g2 j metas).map
        (List.map (fun op => (op.targetName, op.targetPath)))
  | [], _, _ => rfl
  | meta :: rest, i, j => by
    have ih := buildOps_targets formatString zeroPadding sanitize fmt g1 g2 rest
      (i + 1) (j + 1)
    simp only [buildOps]
    cases hf : fmt formatString { meta with cleanedTitle := sanitize meta.filePath.stem }
        zeroPadding with
    | error e => rfl
    | ok targetBase =>
      cases h1 : buildOps formatString zeroPadding sanitize fmt g1 (i + 1) rest with
      | error e1 =>
        cases h2 : buildOps formatString zeroPadding sanitize fmt g2 (j + 1) rest with
        | error e2 =>
          rw [h1, h2] at ih
          simp only [Except.map] at ih ⊢
          exact ih
        | ok l2 =>
          rw [h1, h2] at ih
          simp only [Except.map] at ih
          exact Except.noConfusion ih
      | ok l1 =>
        cases h2 : buildOps formatString zeroPadding sanitize fmt g2 (j + 1) rest with
        | error e2 =>
          rw [h1, h2] at ih
          simp only [Except.map] at ih
          exact Except.noConfusion ih
        | ok l2 =>
          rw [h1, h2] at ih
          simp only [Except.map] at ih ⊢
          injection ih with ih2
          rw [List.map_cons, List.map_cons, ih2]

/-- C6: building a transaction twice from the same sorted metadata,
template and padding yields operations with identical target names and
target paths — the uuid draws (`g1` versus `g2`) influence only the
staging and transaction identifiers.  The builder consumes no
filesystem argument at all: it performs no filesystem access by
construction. -/
theorem claim_c6_builder_deterministic (formatString : String) (zeroPadding : Nat)
    (metadataList : List EpisodeMetadata) (sanitize : String → String)
    (fmt : String → EpisodeMetadata → Nat → Except String String)
    (g1 g2 : Nat → String) :
    transactionTargets
        (buildTransaction formatString zeroPadding metadataList sanitize fmt g1) =
      transactionTargets
        (buildTransaction formatString zeroPadding metadataList sanitize fmt g2) := by
  have h := buildOps_targets formatString zeroPadding sanitize fmt g1 g2
    metadataList 1 1
  have hview : ∀ (g : Nat → String),
      transactionTargets
          (buildTransaction formatString zeroPadding metadataList sanitize fmt g) =
        (buildOps formatString zeroPadding sanitize fmt g 1 metadataList).map
          (List.map (fun op => (op.targetName, op.targetPath))) := by
    intro g
    unfold transactionTargets buildTransaction
    cases hb : buildOps formatString zeroPadding sanitize fmt g 1 metadataList with
    | error e => rfl
    | ok l => rfl
  rw [hview g1, hview g2]
  exact h

/-! ## C10 — missing metadata fields default to 0 / "untitled" -/

/-- Substituting the defaults into the metadata record does not change
the formatting context: `format_safe` already applies `x or 0` to the
optional numbers and `x or "untitled"` to the cleaned title. -/
theorem fmtContext_subst (m : EpisodeMetadata) :
    fmtContext
      { m with
        extractedNumber := some (m.extractedNumber.getD 0)
        season := some (m.season.getD 0)
        episode := some (m.episode.getD 0)
        cleanedTitle := if m.cleanedTitle = "" then "untitled" else m.cleanedTitle } =
    fmtContext m := by
  funext name
  by_cases h1 : name = "number"
  · simp [fmtContext, h1]
  by_cases h2 : name = "title"
  · by_cases hm : m.cleanedTitle = ""
    · simp [fmtContext, h1, h2, hm]
    · simp [fmtContext, h1, h2, hm]
  by_cases h3 : name = "season"
  · simp [fmtContext, h1, h2, h3]
  by_cases h4 : name = "episode"
  · simp [fmtContext, h1, h2, h3, h4]
  simp [fmtContext, h1, h2, h3, h4]

/-- Rendering a token list succeeds when every token renders. -/
theorem renderToks_ok (ctx : String → Except String FmtVal) (toks : List FmtTok)
    (h : ∀ t ∈ toks, ∃ s, renderTok ctx t = Except.ok s) :
    ∃ s, renderToks ctx toks = Except.ok s := by
  induction toks with
  | nil => exact ⟨"", rfl⟩
  | cons t ts ih =>
    obtain ⟨s1, hs1⟩ := h t (List.mem_cons_self _ _)
    obtain ⟨s2, hs2⟩ := ih (fun t2 ht2 => h t2 (List.mem_cons_of_mem _ ht2))
    refine ⟨s1 ++ s2, ?_⟩
    simp only [renderToks]
    rw [hs1, hs2]

/-- A plain token always renders against the metadata context. -/
theorem renderTok_ok_of_plain (m : EpisodeMetadata) (t : FmtTok)
    (h : plainTok t = true) :
    ∃ s, renderTok (fmtContext m) t = Except.ok s := by
  cases t with
  | lit s => exact ⟨s, rfl⟩
  | field name conv spec =>
    simp only [plainTok, Bool.and_eq_true, Bool.or_eq_true, beq_iff_eq,
      Option.isNone_iff_eq_none] at h
    obtain ⟨⟨hn, hc⟩, hs⟩ := h
    subst hc
    have hmem : name ∈ allowedPlaceholders := by simpa using hn
    rcases hs with hs | ⟨hzs, hnames⟩
    · subst hs
      simp only [allowedPlaceholders, List.mem_cons, List.not_mem_nil, or_false] at hmem
      rcases hmem with rfl | rfl | rfl | rfl | rfl <;> exact ⟨_, rfl⟩
    · obtain ⟨w, hw⟩ := Option.isSome_iff_exists.mp hzs
      by_cases hse : spec = ""
      · subst hse
        simp only [allowedPlaceholders, List.mem_cons, List.not_mem_nil, or_false] at hmem
        rcases hmem with rfl | rfl | rfl | rfl | rfl <;> exact ⟨_, rfl⟩
      · rcases hnames with (h | h) | h
        · subst h
          exact ⟨zeroPad w (m.extractedNumber.getD 0), by
            simp [renderTok, fmtContext, hse, hw]⟩
        · subst h
          exact ⟨zeroPad w (m.season.getD 0), by
            simp [renderTok, fmtContext, hse, hw]⟩
        · subst h
          exact ⟨zeroPad w (m.episode.getD 0), by
            simp [renderTok, fmtContext, hse, hw]⟩

/-- A template made of plain tokens passes validation, provided it also
passes the source's unmatched-brace check (it does not contain an
opening brace without any closing brace). -/
theorem validate_of_plain (formatStr : String) (toks : List FmtTok)
    (hp : parseFormat formatStr = some toks)
    (ht : ∀ t ∈ toks, plainTok t = true)
    (hbrace : (formatStr.data.contains lbraceChar &&
      !formatStr.data.contains rbraceChar) = false) :
    validateFormatString formatStr = true := by
  unfold validateFormatString
  rw [hp, Bool.and_eq_true]
  refine ⟨?_, by rw [hbrace]; rfl⟩
  rw [List.all_eq_true]
  intro t htm
  have h := ht t htm
  cases t with
  | lit s => rfl
  | field name conv spec =>
    simp only [plainTok, Bool.and_eq_true, Bool.or_eq_true, beq_iff_eq,
      Option.isNone_iff_eq_none] at h
    obtain ⟨⟨hn, hc⟩, _⟩ := h
    subst hc
    have hmem : name ∈ allowedPlaceholders := by simpa using hn
    have hd : dangerousField name = false := by
      simp only [allowedPlaceholders, List.mem_cons, List.not_mem_nil, or_false] at hmem
      rcases hmem with rfl | rfl | rfl | rfl | rfl <;> rfl
    simp [hd, hn, hmem]

/-- C10: for a template whose parsed tokens are plain (conversion-free
whitelisted fields with empty or zero-pad specs), `format_safe`
and which passes the source's unmatched-brace validity check (a valid
template in the spec's sense), `format_safe`
(a) treats a missing `number`, `season` or `episode` as 0 and an empty
cleaned title as "untitled" — formatting the metadata equals formatting
the record with those defaults substituted — and (b) succeeds rather
than failing. -/
theorem claim_c10_format_defaults (formatStr : String) (toks : List FmtTok)
    (metadata : EpisodeMetadata) (zeroPadding : Nat)
    (hp : parseFormat formatStr = some toks)
    (ht : ∀ t ∈ toks, plainTok t = true)
    (hbrace : (formatStr.data.contains lbraceChar &&
      !formatStr.data.contains rbraceChar) = false) :
    formatSafe formatStr metadata zeroPadding =
      formatSafe formatStr
        { metadata with
          extractedNumber := some (metadata.extractedNumber.getD 0)
          season := some (metadata.season.getD 0)
          episode := some (metadata.episode.getD 0)
          cleanedTitle := if metadata.cleanedTitle = "" then "untitled"
            else metadata.cleanedTitle }
        zeroPadding ∧
      ∃ s, formatSafe formatStr metadata zeroPadding = Except.ok s := by
  have hval := validate_of_plain formatStr toks hp ht hbrace
  constructor
  · unfold formatSafe
    rw [fmtContext_subst]
  · unfold formatSafe
    rw [hval, hp]
    simp only [Bool.true_eq_false, if_false]
    exact renderToks_ok _ _ (fun t htm => renderTok_ok_of_plain metadata t (ht t htm))

/-- Witness for C10 at the default template and a metadata value with
no number and an empty title: the formatted result exists and equals
the one for the substituted record (concretely, "0. untitled"). -/
theorem claim_c10_format_defaults_witness :
    (formatSafe "\x7bnumber\x7d. \x7btitle\x7d" (mkMeta "a.mp4" none) 2 =
      formatSafe "\x7bnumber\x7d. \x7btitle\x7d"
        { mkMeta "a.mp4" none with
          extractedNumber := some ((mkMeta "a.mp4" none).extractedNumber.getD 0)
          season := some ((mkMeta "a.mp4" none).season.getD 0)
          episode := some ((mkMeta "a.mp4" none).episode.getD 0)
          cleanedTitle := if (mkMeta "a.mp4" none).cleanedTitle = "" then "untitled"
            else (mkMeta "a.mp4" none).cleanedTitle }
        2 ∧
      ∃ s, formatSafe "\x7bnumber\x7d. \x7btitle\x7d" (mkMeta "a.mp4" none) 2 =
        Except.ok s) ∧
    formatSafe "\x7bnumber\x7d. \x7btitle\x7d" (mkMeta "a.mp4" none) 2 =
      Except.ok "0. untitled" :=
  ⟨claim_c10_format_defaults "\x7bnumber\x7d. \x7btitle\x7d"
      [FmtTok.field "number" none "", FmtTok.lit ". ", FmtTok.field "title" none ""]
      (mkMeta "a.mp4" none) 2 rfl (by decide) (by decide),
   rfl⟩

/-! ## C4 — circular rename detection -/

/-- What a successful lookup in the rename map yields: an operation of
the list whose source is the queried path. -/
theorem renameLookup_spec {operations : List RenameOperation} {p : FPath}
    {op : RenameOperation} (h : renameLookup operations p = some op) :
    op.originalPath = p ∧ op ∈ operations := by
  unfold renameLookup at h
  constructor
  · have := List.find?_some h
    simpa using this
  · have := List.mem_of_find?_eq_some h
    exact List.mem_reverse.mp this

/-- Structure of the operation list recovered from a walk of the rename
map: as many operations as steps, all drawn from the transaction,
chained source→target, starting at `start` and currently standing at
`current`. -/
theorem pathChain_props (operations : List RenameOperation) (start : FPath) :
    ∀ (path : List FPath) (current : FPath),
    PathChain operations start path current →
    ((path.filterMap (renameLookup operations)).length = path.length ∧
     (∀ op ∈ path.filterMap (renameLookup operations), op ∈ operations) ∧
     List.Chain' opEdge (path.filterMap (renameLookup operations)) ∧
     (path = [] → current = start) ∧
     (∀ fi ∈ (path.filterMap (renameLookup operations)).head?,
       fi.originalPath = start) ∧
     (∀ la ∈ (path.filterMap (renameLookup operations)).getLast?,
       la.targetPath = current)) := by
  intro path current h
  induction h with
  | nil =>
    refine ⟨rfl, by simp, by simp, fun _ => rfl, by simp, by simp⟩
  | @snoc path current op hprev hlook ih =>
    obtain ⟨ihlen, ihmem, ihchain, ihnil, ihhead, ihlast⟩ := ih
    have hfm : (path ++ [current]).filterMap (renameLookup operations) =
        path.filterMap (renameLookup operations) ++ [op] := by
      rw [List.filterMap_append]
      simp [hlook]
    have hop := renameLookup_spec hlook
    refine ⟨?_, ?_, ?_, ?_, ?_, ?_⟩
    · rw [hfm]
      simp [ihlen]
    · rw [hfm]
      intro op2 hm
      rcases List.mem_append.mp hm with hm | hm
      · exact ihmem op2 hm
      · rw [List.mem_singleton] at hm
        subst hm
        exact hop.2
    · rw [hfm]
      refine List.chain'_append.mpr ⟨ihchain, List.chain'_singleton _, ?_⟩
      intro la hla y hy
      rw [List.head?_cons, Option.mem_some_iff] at hy
      subst hy
      show la.targetPath = op.originalPath
      rw [ihlast la hla, hop.1]
    · intro hcontra
      exact absurd hcontra (by simp)
    · rw [hfm]
      cases hc : path.filterMap (renameLookup operations) with
      | nil =>
        intro fi hfi
        simp only [hc, List.nil_append, List.head?_cons, Option.mem_some_iff] at hfi
        subst hfi
        have hpath : path = [] := by
          have := ihlen
          rw [hc] at this
          exact List.eq_nil_of_length_eq_zero this.symm
        rw [hop.1, ihnil hpath]
      | cons x xs =>
        intro fi hfi
        simp only [hc, List.cons_append, List.head?_cons, Option.mem_some_iff] at hfi
        subst hfi
        rw [hc] at ihhead
        exact ihhead _ (by simp)
    · rw [hfm]
      intro la hla
      rw [List.getLast?_append, List.getLast?_singleton] at hla
      simp only [Option.or_some, Option.mem_some_iff] at hla
      subst hla
      rfl

/-- Soundness of the depth-first search: every cycle it appends is a
genuine rename cycle. -/
theorem findCycle_sound (operations : List RenameOperation) (start : FPath) :
    ∀ (fuel : Nat) (current : FPath) (path : List FPath) (st : CycleState),
    PathChain operations start path current →
    ∀ c ∈ (findCycle operations start fuel current path st).2.cycles,
      c ∈ st.cycles ∨ isCycleOf operations c := by
  intro fuel
  induction fuel with
  | zero =>
    intro current path st _ c hc
    exact Or.inl hc
  | succ fuel ih =>
    intro current path st hchain c hc
    rw [findCycle] at hc
    by_cases hcyc : current = start ∧ 1 < path.length
    · rw [if_pos hcyc] at hc
      by_cases hemp : (path.filterMap (renameLookup operations)).isEmpty
      · rw [if_pos hemp] at hc
        exact Or.inl hc
      · rw [if_neg hemp] at hc
        simp only at hc
        rcases List.mem_append.mp hc with hm | hm
        · exact Or.inl hm
        · rw [List.mem_singleton] at hm
          subst hm
          obtain ⟨hlen, hmem, hchain2, _, hhead, hlast⟩ :=
            pathChain_props operations start path current hchain
          refine Or.inr ⟨?_, hmem, hchain2, ?_⟩
          · rw [hlen]
            omega
          · intro la hla fi hfi
            show la.targetPath = fi.originalPath
            rw [hlast la hla, hhead fi hfi, hcyc.1]
    · rw [if_neg hcyc] at hc
      by_cases hvis : current ∈ st.visited
      · rw [if_pos hvis] at hc
        exact Or.inl hc
      · rw [if_neg hvis] at hc
        cases hlook : renameLookup operations current with
        | none =>
          simp only [hlook] at hc
          exact Or.inl hc
        | some op =>
          simp only [hlook] at hc
          exact ih op.targetPath (path ++ [current])
            { st with visited := st.visited ++ [current] }
            (PathChain.snoc hchain hlook) c hc

/-- Soundness carried through the start-node loop of
`detect_circular_renames`. -/
theorem detectCircularRenames_fold_sound (operations : List RenameOperation) :
    ∀ (l : List RenameOperation) (st : CycleState),
    (∀ c ∈ st.cycles, isCycleOf operations c) →
    ∀ c ∈ (l.foldl
      (fun st op =>
        if op.originalPath ∈ st.visited then st
        else (findCycle operations op.originalPath (operations.length + 1)
          op.originalPath [] st).2)
      st).cycles,
      isCycleOf operations c := by
  intro l
  induction l with
  | nil =>
    intro st hst c hc
    exact hst c hc
  | cons op rest ih =>
    intro st hst c hc
    rw [List.foldl_cons] at hc
    by_cases hvis : op.originalPath ∈ st.visited
    · rw [if_pos hvis] at hc
      exact ih st hst c hc
    · rw [if_neg hvis] at hc
      refine ih _ ?_ c hc
      intro c2 hc2
      rcases findCycle_sound operations op.originalPath (operations.length + 1)
          op.originalPath [] st PathChain.nil c2 hc2 with hm | hm
      · exact hst c2 hm
      · exact hm

/-- C4 (amended): every cycle reported by `detect_circular_renames` is
a genuine directed cycle of length at least 2 in the source→target
graph, given as the ordered list of operations forming it.  The
converse of the original claim — that *every* such cycle is reported —
fails: the shared visited set makes the search skip a cycle whose nodes
were already reached through a non-cycle chain (see the
counterexample). -/
theorem claim_c4_cycles_sound (operations : List RenameOperation)
    (c : List RenameOperation) (h : c ∈ detectCircularRenames operations) :
    isCycleOf operations c := by
  unfold detectCircularRenames at h
  exact detectCircularRenames_fold_sound operations operations ⟨[], []⟩
    (by intro c2 hc2; exact absurd hc2 (List.not_mem_nil c2)) c h

/-- Witness for C4: the two-operation swap A→B, B→A is reported and is
a genuine cycle. -/
theorem claim_c4_cycles_sound_witness :
    isCycleOf cycOps [mkOp "A.mp4" "B.mp4" "v0", mkOp "B.mp4" "A.mp4" "v1"] :=
  claim_c4_cycles_sound cycOps
    [mkOp "A.mp4" "B.mp4" "v0", mkOp "B.mp4" "A.mp4" "v1"] (by decide)

/-- C4 (counterexample to the claim as stated): with operations
X→A, A→B, B→A, the operations A→B and B→A form a directed cycle of
length 2, yet `detect_circular_renames` reports no cycle at all — the
walk from X visits A and B first, and the cycle checks starting at A
and B are skipped because they are already in the shared visited set. -/
theorem claim_c4_cycles_counterexample :
    detectCircularRenames tailCycOps = [] ∧
      isCycleOf tailCycOps [mkOp "A.mp4" "B.mp4" "w1", mkOp "B.mp4" "A.mp4" "w2"] := by
  constructor
  · decide
  · refine ⟨by decide, by decide, ?_, ?_⟩
    · exact List.chain'_pair.mpr rfl
    · intro la hla fi hfi
      simp only [List.getLast?_cons_cons, List.getLast?_singleton,
        Option.mem_some_iff] at hla
      simp only [List.head?_cons, Option.mem_some_iff] at hfi
      subst hla
      subst hfi
      rfl

/-! ## C2 — a fully successful transaction commits cleanly

Helper lemmas about the modelled filesystem and about each phase of the
manager, leading to: when preflight passes and every rename call of
phase one and phase two succeeds, `execute_transaction` returns `true`
with every operation COMPLETED and no staging file on disk. -/

theorem Fs.mem_add {fs : Fs} {p q : FPath} :
    p ∈ Fs.add fs q ↔ p = q ∨ p ∈ fs := by
  unfold Fs.add
  split
  · next hq =>
    constructor
    · exact Or.inr
    · rintro (rfl | h)
      · exact hq
      · exact h
  · exact List.mem_cons

theorem Fs.mem_remove {fs : Fs} {p q : FPath} :
    p ∈ Fs.remove fs q ↔ p ∈ fs ∧ p ≠ q := by
  unfold Fs.remove
  rw [List.mem_filter]
  simp [bne_iff_ne]

/-- Every successful non-trivial `_safe_rename` (source distinct from
target) moves the file: the result is the filesystem with the source
entry removed and the target entry present. -/
theorem safeRename_ok_move {fs fs2 : Fs} {source target : FPath} {inject : Bool}
    (hne : source ≠ target)
    (h : safeRename fs source target inject = Except.ok fs2) :
    fs2 = Fs.add (Fs.remove fs source) target := by
  unfold safeRename at h
  by_cases hi : inject = true
  · rw [if_pos hi] at h
    exact absurd h (by simp)
  rw [if_neg hi, if_neg hne] at h
  by_cases hcase : strLower source.name = strLower target.name ∧
      source.name ≠ target.name
  · rw [if_pos hcase] at h
    by_cases hsf : source ∈ fs
    · rw [if_pos hsf] at h
      injection h with h
      exact h.symm
    · rw [if_neg hsf] at h
      exact absurd h (by simp)
  · rw [if_neg hcase] at h
    by_cases htf : target ∈ fs
    · rw [if_pos htf] at h
      exact absurd h (by simp)
    · rw [if_neg htf] at h
      by_cases hsf : source ∈ fs
      · rw [if_pos hsf] at h
        injection h with h
        exact h.symm
      · rw [if_neg hsf] at h
        exact absurd h (by simp)

/-- A counted rename call that reports no error moved the file and
advanced the call counter. -/
theorem doRename_ok {failAt : Option Nat} {st st2 : ExecState}
    {source target : FPath} (hne : source ≠ target)
    (h : doRename failAt st source target = (st2, none)) :
    st2.fs = Fs.add (Fs.remove st.fs source) target ∧ st2.calls = st.calls + 1 := by
  unfold doRename at h
  cases hsr : safeRename st.fs source target (failAt == some st.calls) with
  | ok fs2 =>
    rw [hsr] at h
    injection h with h1 h2
    subst h1
    exact ⟨safeRename_ok_move hne hsr, rfl⟩
  | error e =>
    rw [hsr] at h
    injection h with h1 h2
    exact absurd h2 (by simp)

/-- Successful preflight returns the operations unchanged except that
each has been assigned its staging path. -/
theorem preflight_ok_shape {fs : Fs} :
    ∀ {ops ops1 : List RenameOperation},
    preflight fs ops = Except.ok ops1 →
    ops1 = ops.map (fun op => { op with stagingPath := some (stagingPathOf op) })
  | [], ops1, h => by
    simp only [preflight] at h
    injection h with h
    rw [← h]
    rfl
  | op :: rest, ops1, h => by
    simp only [preflight] at h
    split_ifs at h with hmem
    · cases hrec : preflight fs rest with
      | ok rest2 =>
        rw [hrec] at h
        injection h with h
        rw [← h, List.map_cons, preflight_ok_shape hrec]
      | error e =>
        rw [hrec] at h
        exact absurd h (by simp)

/-- A phase-one run with no error stages every operation, changing
nothing else. -/
theorem phaseOne_none_shape {failAt : Option Nat} :
    ∀ {l : List RenameOperation} {st st2 : ExecState} {l2 : List RenameOperation},
    phaseOne failAt st l = (st2, l2, none) →
    l2 = l.map (fun op => { op with status := RenameStatus.staged })
  | [], st, st2, l2, h => by
    simp only [phaseOne] at h
    injection h with h1 h2
    injection h2 with h2 h3
    rw [← h2]
    rfl
  | op :: rest, st, st2, l2, h => by
    simp only [phaseOne] at h
    cases hd : doRename failAt st op.originalPath (op.stagingPath.getD nullPath) with
    | mk std oe =>
      cases oe with
      | none =>
        rw [hd] at h
        simp only at h
        injection h with h1 h2
        injection h2 with h2 h3
        rw [← h2, List.map_cons, phaseOne_none_shape
          (show phaseOne failAt std rest = ((phaseOne failAt std rest).1,
            (phaseOne failAt std rest).2.1, none) from by
              rw [← h3])]
      | some e =>
        rw [hd] at h
        simp only at h
        injection h with h1 h2
        injection h2 with h2 h3
        exact absurd h3.symm (by simp)

/-- Phase one with no error never removes a file other than the renamed
sources: a present path not appearing as a source survives. -/
theorem phaseOne_preserves {failAt : Option Nat} :
    ∀ {l : List RenameOperation} {st st2 : ExecState} {l2 : List RenameOperation},
    phaseOne failAt st l = (st2, l2, none) →
    (hne : ∀ op ∈ l, op.originalPath ≠ op.stagingPath.getD nullPath) →
    ∀ p, p ∈ st.fs → (∀ op ∈ l, op.originalPath ≠ p) → p ∈ st2.fs
  | [], st, st2, l2, h, hne, p, hp, hsrc => by
    simp only [phaseOne] at h
    injection h with h1 h2
    rw [← h1]
    exact hp
  | op :: rest, st, st2, l2, h, hne, p, hp, hsrc => by
    simp only [phaseOne] at h
    cases hd : doRename failAt st op.originalPath (op.stagingPath.getD nullPath) with
    | mk std oe =>
      cases oe with
      | none =>
        rw [hd] at h
        simp only at h
        injection h with h1 h2
        injection h2 with h2 h3
        have hmove := (doRename_ok (hne op (List.mem_cons_self _ _)) hd).1
        have hp2 : p ∈ std.fs := by
          rw [hmove, Fs.mem_add, Fs.mem_remove]
          exact Or.inr ⟨hp, fun he => hsrc op (List.mem_cons_self _ _) (he ▸ rfl)⟩
        have hrec : phaseOne failAt std rest = (st2, (phaseOne failAt std rest).2.1, none) := by
          rw [← h3, ← h1]
        exact phaseOne_preserves hrec
          (fun op2 h2m => hne op2 (List.mem_cons_of_mem _ h2m)) p hp2
          (fun op2 h2m => hsrc op2 (List.mem_cons_of_mem _ h2m))
      | some e =>
        rw [hd] at h
        simp only at h
        injection h with h1 h2
        injection h2 with h2 h3
        exact absurd h3.symm (by simp)

/-- After an error-free phase one, every operation's staging file is on
disk, provided no operation's source path is any operation's staging
path (the staging names are fresh). -/
theorem phaseOne_staging_mem {failAt : Option Nat} :
    ∀ {l : List RenameOperation} {st st2 : ExecState} {l2 : List RenameOperation},
    phaseOne failAt st l = (st2, l2, none) →
    (hfresh : ∀ op ∈ l, ∀ op2 ∈ l, op2.originalPath ≠ op.stagingPath.getD nullPath) →
    ∀ op ∈ l, op.stagingPath.getD nullPath ∈ st2.fs
  | [], st, st2, l2, h, hfresh, op, hm => absurd hm (List.not_mem_nil op)
  | op :: rest, st, st2, l2, h, hfresh, op2, hm => by
    simp only [phaseOne] at h
    cases hd : doRename failAt st op.originalPath (op.stagingPath.getD nullPath) with
    | mk std oe =>
      cases oe with
      | none =>
        rw [hd] at h
        simp only at h
        injection h with h1 h2
        injection h2 with h2 h3
        have hself : op.originalPath ≠ op.stagingPath.getD nullPath :=
          hfresh op (List.mem_cons_self _ _) op (List.mem_cons_self _ _)
        have hmove := (doRename_ok hself hd).1
        have hrec : phaseOne failAt std rest = (st2, (phaseOne failAt std rest).2.1, none) := by
          rw [← h3, ← h1]
        rcases List.mem_cons.mp hm with rfl | hm2
        · have hin : op2.stagingPath.getD nullPath ∈ std.fs := by
            rw [hmove, Fs.mem_add]
            exact Or.inl rfl
          exact phaseOne_preserves hrec
            (fun op3 h3m => hfresh op3 (List.mem_cons_of_mem _ h3m) op3
              (List.mem_cons_of_mem _ h3m)) _ hin
            (fun op3 h3m => hfresh op2 (List.mem_cons_self _ _) op3
              (List.mem_cons_of_mem _ h3m))
        · exact phaseOne_staging_mem hrec
            (fun op3 h3m op4 h4m => hfresh op3 (List.mem_cons_of_mem _ h3m) op4
              (List.mem_cons_of_mem _ h4m)) op2 hm2
      | some e =>
        rw [hd] at h
        simp only at h
        injection h with h1 h2
        injection h2 with h2 h3
        exact absurd h3.symm (by simp)

/-- A phase-two run with no error completes every operation, changing
nothing else. -/
theorem phaseTwo_none_shape {failAt : Option Nat} :
    ∀ {l : List RenameOperation} {st st2 : ExecState} {l2 : List RenameOperation},
    phaseTwo failAt st l = (st2, l2, none) →
    l2 = l.map (fun op => { op with status := RenameStatus.completed })
  | [], st, st2, l2, h => by
    simp only [phaseTwo] at h
    injection h with h1 h2
    injection h2 with h2 h3
    rw [← h2]
    rfl
  | op :: rest, st, st2, l2, h => by
    simp only [phaseTwo] at h
    cases hd : doRename failAt st (op.stagingPath.getD nullPath) op.targetPath with
    | mk std oe =>
      cases oe with
      | none =>
        rw [hd] at h
        simp only at h
        injection h with h1 h2
        injection h2 with h2 h3
        rw [← h2, List.map_cons, phaseTwo_none_shape
          (show phaseTwo failAt std rest = ((phaseTwo failAt std rest).1,
            (phaseTwo failAt std rest).2.1, none) from by
              rw [← h3])]
      | some e =>
        rw [hd] at h
        simp only at h
        injection h with h1 h2
        injection h2 with h2 h3
        exact absurd h3.symm (by simp)

/-- Phase two with no error only ever creates target files: a path that
is absent and is no operation's target stays absent. -/
theorem phaseTwo_preserves_out {failAt : Option Nat} :
    ∀ {l : List RenameOperation} {st st2 : ExecState} {l2 : List RenameOperation},
    phaseTwo failAt st l = (st2, l2, none) →
    (hne : ∀ op ∈ l, op.stagingPath.getD nullPath ≠ op.targetPath) →
    ∀ p, p ∉ st.fs → (∀ op ∈ l, op.targetPath ≠ p) → p ∉ st2.fs
  | [], st, st2, l2, h, hne, p, hp, htgt => by
    simp only [phaseTwo] at h
    injection h with h1 h2
    rw [← h1]
    exact hp
  | op :: rest, st, st2, l2, h, hne, p, hp, htgt => by
    simp only [phaseTwo] at h
    cases hd : doRename failAt st (op.stagingPath.getD nullPath) op.targetPath with
    | mk std oe =>
      cases oe with
      | none =>
        rw [hd] at h
        simp only at h
        injection h with h1 h2
        injection h2 with h2 h3
        have hmove := (doRename_ok (hne op (List.mem_cons_self _ _)) hd).1
        have hp2 : p ∉ std.fs := by
          rw [hmove, Fs.mem_add, Fs.mem_remove]
          rintro (rfl | ⟨hin, _⟩)
          · exact htgt op (List.mem_cons_self _ _) rfl
          · exact hp hin
        have hrec : phaseTwo failAt std rest = (st2, (phaseTwo failAt std rest).2.1, none) := by
          rw [← h3, ← h1]
        exact phaseTwo_preserves_out hrec
          (fun op2 h2m => hne op2 (List.mem_cons_of_mem _ h2m)) p hp2
          (fun op2 h2m => htgt op2 (List.mem_cons_of_mem _ h2m))
      | some e =>
        rw [hd] at h
        simp only at h
        injection h with h1 h2
        injection h2 with h2 h3
        exact absurd h3.symm (by simp)

/-- After an error-free phase two, no staging file of the transaction
remains on disk, provided no operation's target path is any
operation's staging path. -/
theorem phaseTwo_staging_out {failAt : Option Nat} :
    ∀ {l : List RenameOperation} {st st2 : ExecState} {l2 : List RenameOperation},
    phaseTwo failAt st l = (st2, l2, none) →
    (hfresh : ∀ op ∈ l, ∀ op2 ∈ l, op2.targetPath ≠ op.stagingPath.getD nullPath) →
    ∀ op ∈ l, op.stagingPath.getD nullPath ∉ st2.fs
  | [], st, st2, l2, h, hfresh, op, hm => absurd hm (List.not_mem_nil op)
  | op :: rest, st, st2, l2, h, hfresh, op2, hm => by
    simp only [phaseTwo] at h
    cases hd : doRename failAt st (op.stagingPath.getD nullPath) op.targetPath with
    | mk std oe =>
      cases oe with
      | none =>
        rw [hd] at h
        simp only at h
        injection h with h1 h2
        injection h2 with h2 h3
        have hself : op.stagingPath.getD nullPath ≠ op.targetPath := fun he =>
          hfresh op (List.mem_cons_self _ _) op (List.mem_cons_self _ _) he.symm
        have hmove := (doRename_ok hself hd).1
        have hrec : phaseTwo failAt std rest = (st2, (phaseTwo failAt std rest).2.1, none) := by
          rw [← h3, ← h1]
        rcases List.mem_cons.mp hm with rfl | hm2
        · have hout : op2.stagingPath.getD nullPath ∉ std.fs := by
            rw [hmove, Fs.mem_add, Fs.mem_remove]
            rintro (he | ⟨_, hne⟩)
            · exact hfresh op2 (List.mem_cons_self _ _) op2 (List.mem_cons_self _ _) he.symm
            · exact hne rfl
          exact phaseTwo_preserves_out hrec
            (fun op3 h3m he => hfresh op3 (List.mem_cons_of_mem _ h3m) op3
              (List.mem_cons_of_mem _ h3m) he.symm) _ hout
            (fun op3 h3m => hfresh op2 (List.mem_cons_self _ _) op3
              (List.mem_cons_of_mem _ h3m))
        · exact phaseTwo_staging_out hrec
            (fun op3 h3m op4 h4m => hfresh op3 (List.mem_cons_of_mem _ h3m) op4
              (List.mem_cons_of_mem _ h4m)) op2 hm2
      | some e =>
        rw [hd] at h
        simp only at h
        injection h with h1 h2
        injection h2 with h2 h3
        exact absurd h3.symm (by simp)

/-- C2: when every preflight check passes (`h0`), every phase-one
rename call succeeds (`h1`) and every phase-two rename call succeeds
(`h2`), and the preflight-assigned staging paths are fresh — no
operation's target or source path collides with any staging path
(`hb`, `hc`; in the source this is guaranteed by the uuid4 staging
identifiers) — then `execute_transaction` commits: it returns `true`,
every operation ends COMPLETED, and no staging file of the transaction
remains on disk. -/
theorem claim_c2_success_commit (fs : Fs) (failAt : Option Nat)
    (ops ops1 ops2 ops3 : List RenameOperation) (st1 st2 : ExecState)
    (h0 : preflight fs ops = Except.ok ops1)
    (h1 : phaseOne failAt ⟨fs, 0⟩ ops1 = (st1, ops2, none))
    (h2 : phaseTwo failAt st1 ops2 = (st2, ops3, none))
    (hb : ∀ op ∈ ops, ∀ op2 ∈ ops, op2.targetPath ≠ stagingPathOf op)
    (hc : ∀ op ∈ ops, ∀ op2 ∈ ops, op2.originalPath ≠ stagingPathOf op) :
    executeTransaction fs failAt ops = ⟨st2.fs, ops3, true⟩ ∧
    (∀ op ∈ ops3, op.status = RenameStatus.completed) ∧
    (∀ op ∈ ops3, ∀ p, op.stagingPath = some p → p ∉ st2.fs) := by
  have hs1 := preflight_ok_shape h0
  have hs2 := phaseOne_none_shape h1
  have hs3 := phaseTwo_none_shape h2
  have hmem1 : ∀ op2 ∈ ops1, ∃ op ∈ ops,
      op2 = { op with stagingPath := some (stagingPathOf op) } := by
    rw [hs1]
    intro op2 hm
    obtain ⟨op, hop, he⟩ := List.mem_map.mp hm
    exact ⟨op, hop, he.symm⟩
  have hmem2 : ∀ op2 ∈ ops2, ∃ op ∈ ops,
      op2 = { op with
        stagingPath := some (stagingPathOf op)
        status := RenameStatus.staged } := by
    rw [hs2, hs1]
    intro op2 hm
    obtain ⟨op3, hop3, he3⟩ := List.mem_map.mp hm
    obtain ⟨op, hop, he⟩ := List.mem_map.mp hop3
    exact ⟨op, hop, by rw [← he3, ← he]⟩
  have hmem3 : ∀ op2 ∈ ops3, ∃ op ∈ ops,
      op2 = { op with
        stagingPath := some (stagingPathOf op)
        status := RenameStatus.completed } := by
    rw [hs3]
    intro op2 hm
    obtain ⟨op3, hop3, he3⟩ := List.mem_map.mp hm
    obtain ⟨op, hop, he⟩ := hmem2 op3 hop3
    exact ⟨op, hop, by rw [← he3, he]⟩
  have hfresh1 : ∀ op ∈ ops1, ∀ op2 ∈ ops1,
      op2.originalPath ≠ op.stagingPath.getD nullPath := by
    intro op hm op2 hm2
    obtain ⟨o1, ho1, he1⟩ := hmem1 op hm
    obtain ⟨o2, ho2, he2⟩ := hmem1 op2 hm2
    subst he1
    subst he2
    simpa using hc o1 ho1 o2 ho2
  have hfresh2 : ∀ op ∈ ops2, ∀ op2 ∈ ops2,
      op2.targetPath ≠ op.stagingPath.getD nullPath := by
    intro op hm op2 hm2
    obtain ⟨o1, ho1, he1⟩ := hmem2 op hm
    obtain ⟨o2, ho2, he2⟩ := hmem2 op2 hm2
    subst he1
    subst he2
    simpa using hb o1 ho1 o2 ho2
  have hstg1 := phaseOne_staging_mem h1 hfresh1
  have hverify : verifyPhaseOne st1.fs ops2 = true := by
    unfold verifyPhaseOne
    rw [List.all_eq_true]
    intro op hm
    obtain ⟨o1, ho1, he1⟩ := hmem2 op hm
    have hin : op.stagingPath.getD nullPath ∈ st1.fs := by
      rw [hs2] at hm
      obtain ⟨o2, ho2, he2⟩ := List.mem_map.mp hm
      have := hstg1 o2 ho2
      rw [← he2]
      exact this
    subst he1
    simp only [Option.getD_some] at hin
    simp [hin]
  have hall : (ops3.all (fun op => op.status == RenameStatus.completed)) = true := by
    rw [List.all_eq_true]
    intro op hm
    obtain ⟨o1, ho1, he1⟩ := hmem3 op hm
    subst he1
    rfl
  refine ⟨?_, ?_, ?_⟩
  · unfold executeTransaction
    rw [h0]
    simp only [h1, hverify, if_true, h2, hall]
  · intro op hm
    obtain ⟨o1, ho1, he1⟩ := hmem3 op hm
    subst he1
    rfl
  · intro op hm p hp
    have hout := phaseTwo_staging_out h2 hfresh2
    rw [hs3] at hm
    obtain ⟨o2, ho2, he2⟩ := List.mem_map.mp hm
    have := hout o2 ho2
    have hsp : o2.stagingPath = some p := by
      rw [← he2] at hp
      exact hp
    rw [hsp] at this
    simpa using this

/-- Witness for C2: the two-file transaction runs with no fault
injected; both operations end COMPLETED, the staging files are gone and
the targets are on disk. -/
theorem claim_c2_success_commit_witness :
    executeTransaction txFs none txOps =
      ⟨[⟨"d", "2. B.mp4"⟩, ⟨"d", "1. A.mp4"⟩],
        [{ mkOp "a.mp4" "1. A.mp4" "u0" with
            stagingPath := some ⟨"d", ".rename_staging_u0.mp4"⟩
            status := RenameStatus.completed },
         { mkOp "b.mp4" "2. B.mp4" "u1" with
            stagingPath := some ⟨"d", ".rename_staging_u1.mp4"⟩
            status := RenameStatus.completed }], true⟩ ∧
    (∀ op ∈ [{ mkOp "a.mp4" "1. A.mp4" "u0" with
        stagingPath := some (⟨"d", ".rename_staging_u0.mp4"⟩ : FPath)
        status := RenameStatus.completed },
      { mkOp "b.mp4" "2. B.mp4" "u1" with
        stagingPath := some (⟨"d", ".rename_staging_u1.mp4"⟩ : FPath)
        status := RenameStatus.completed }], op.status = RenameStatus.completed) ∧
    (∀ op ∈ [{ mkOp "a.mp4" "1. A.mp4" "u0" with
        stagingPath := some (⟨"d", ".rename_staging_u0.mp4"⟩ : FPath)
        status := RenameStatus.completed },
      { mkOp "b.mp4" "2. B.mp4" "u1" with
        stagingPath := some (⟨"d", ".rename_staging_u1.mp4"⟩ : FPath)
        status := RenameStatus.completed }],
      ∀ p, op.stagingPath = some p →
        p ∉ (⟨[⟨"d", "2. B.mp4"⟩, ⟨"d", "1. A.mp4"⟩], 4⟩ : ExecState).fs) :=
  claim_c2_success_commit txFs none txOps
    [{ mkOp "a.mp4" "1. A.mp4" "u0" with
        stagingPath := some ⟨"d", ".rename_staging_u0.mp4"⟩ },
     { mkOp "b.mp4" "2. B.mp4" "u1" with
        stagingPath := some ⟨"d", ".rename_staging_u1.mp4"⟩ }]
    [{ mkOp "a.mp4" "1. A.mp4" "u0" with
        stagingPath := some ⟨"d", ".rename_staging_u0.mp4"⟩
        status := RenameStatus.staged },
     { mkOp "b.mp4" "2. B.mp4" "u1" with
        stagingPath := some ⟨"d", ".rename_staging_u1.mp4"⟩
        status := RenameStatus.staged }]
    [{ mkOp "a.mp4" "1. A.mp4" "u0" with
        stagingPath := some ⟨"d", ".rename_staging_u0.mp4"⟩
        status := RenameStatus.completed },
     { mkOp "b.mp4" "2. B.mp4" "u1" with
        stagingPath := some ⟨"d", ".rename_staging_u1.mp4"⟩
        status := RenameStatus.completed }]
    ⟨[⟨"d", ".rename_staging_u1.mp4"⟩, ⟨"d", ".rename_staging_u0.mp4"⟩], 2⟩
    ⟨[⟨"d", "2. B.mp4"⟩, ⟨"d", "1. A.mp4"⟩], 4⟩
    rfl rfl rfl (by decide) (by decide)

end RenameFileGUI
